import Mathlib

/-!
Verification of the JSON form generator (src/app.py).

The file shallowly embeds the program: JSON values (`JValue`), the submission
data model (`Value`, `Submission`), a model of Python's `json.dump`
(pretty-printed, `indent=2`, `ensure_ascii=False`) and `json.loads`
(restricted to integer numerals, which is all the program ever writes), and
the program's own operations (`render_form`, `validar_regex`,
`guardar_historial`, `eliminar_entrada_historial`, `mostrar_historial`,
`load_schema`, `render_output`).  Python's `re.fullmatch` is treated as an
external oracle parameter, since the claims only condition on its outcome.
The file system is modelled as `Option String` (the history file's content,
`none` when the file is missing); a Python exception escaping a method is
modelled as `Except.error`.
-/

namespace JsonFormApp

/-- A JSON value, as produced by Python's `json.loads` / consumed by
`json.dump`.  Objects keep their members as an ordered association list
(the program never writes duplicate keys). -/
inductive JValue where
  | null : JValue
  | bool (b : Bool) : JValue
  | num (n : Int) : JValue
  | str (s : String) : JValue
  | arr (xs : List JValue) : JValue
  | obj (ms : List (String × JValue)) : JValue

/-- A value collected by the form engine for one field: the four field kinds
of the schema (`texto`, `numero`, `booleano`, `lista`). -/
inductive Value where
  | vStr (s : String) : Value
  | vNum (n : Int) : Value
  | vBool (b : Bool) : Value
  | vList (xs : List String) : Value
deriving DecidableEq

/-- The state `self.data`: ordered mapping from field name to collected value. -/
abbrev Submission := List (String × Value)

/-- The state `self.errores`: ordered mapping from field name to error message. -/
abbrev ErrorSet := List (String × String)

/-- The JSON value a collected field value is serialized as. -/
def encodeVal : Value → JValue
  | .vStr s => .str s
  | .vNum n => .num n
  | .vBool b => .bool b
  | .vList xs => .arr (xs.map JValue.str)

/-- The JSON object a submission is serialized as. -/
def encodeSub (sub : Submission) : JValue :=
  .obj (sub.map fun kv => (kv.1, encodeVal kv.2))

/-- The JSON array elements a history log of submissions is serialized as. -/
def encodeLog (log : List Submission) : List JValue :=
  log.map encodeSub

/-! ### Model of `json.dump(historial, f, indent=2, ensure_ascii=False)` -/

/-- The decimal digit character for `n < 10`. -/
def digitChar (n : Nat) : Char := Char.ofNat (48 + n)

/-- Decimal digits of `n`, most significant first; `fuel`-driven
(`fuel ≥ n` is always enough, and the empty list is returned for `n = 0`). -/
def natDigs : Nat → Nat → List Char
  | 0, _ => []
  | f + 1, n => if n = 0 then [] else natDigs f (n / 10) ++ [digitChar (n % 10)]

/-- Decimal representation of a natural number, as Python's `str`. -/
def natChars (n : Nat) : List Char := if 0 < n then natDigs n n else ['0']

/-- Decimal representation of an integer, as Python's `str` on `int`. -/
def intChars : Int → List Char
  | .ofNat n => natChars n
  | .negSucc m => '-' :: natChars (m + 1)

/-- Lower-case hexadecimal digit for `n < 16`. -/
def hexDig (n : Nat) : Char :=
  if n < 10 then Char.ofNat (48 + n) else Char.ofNat (87 + n)

/-- How Python's json encoder writes one character of a string with
`ensure_ascii=False`: `"`, `\`, and control characters are escaped (the
common controls by their short forms, the rest as `\u00xx`), everything
else is written literally. -/
def escChar (c : Char) : List Char :=
  if c = '"' then ['\\', '"']
  else if c = '\\' then ['\\', '\\']
  else if c = '\n' then ['\\', 'n']
  else if c = '\r' then ['\\', 'r']
  else if c = '\t' then ['\\', 't']
  else if c = Char.ofNat 8 then ['\\', 'b']
  else if c = Char.ofNat 12 then ['\\', 'f']
  else if c.toNat < 32 then
    ['\\', 'u', '0', '0', hexDig (c.toNat / 16), hexDig (c.toNat % 16)]
  else [c]

/-- A JSON string literal for `s`. -/
def strChars (s : String) : List Char :=
  '"' :: (s.toList.map escChar).flatten ++ ['"']

/-- Indentation prefix at nesting depth `d` (two spaces per level). -/
def pad (d : Nat) : List Char := List.replicate (2 * d) ' '

mutual

/-- Characters written for a value at nesting depth `d` by
`json.dump(v, f, indent=2, ensure_ascii=False)`. -/
def dumpVal (d : Nat) : JValue → List Char
  | .null => 'n' :: ['u', 'l', 'l']
  | .bool true => 't' :: ['r', 'u', 'e']
  | .bool false => 'f' :: ['a', 'l', 's', 'e']
  | .num n => intChars n
  | .str s => strChars s
  | .arr [] => ['[', ']']
  | .arr (x :: xs) =>
      '[' :: '\n' :: (pad (d + 1) ++ dumpVal (d + 1) x ++ dumpArrTail (d + 1) xs
        ++ '\n' :: (pad d ++ [']']))
  | .obj [] => ['{', '}']
  | .obj (m :: ms) =>
      '{' :: '\n' :: (pad (d + 1) ++ strChars m.1 ++ ':' :: ' ' :: dumpVal (d + 1) m.2
        ++ dumpObjTail (d + 1) ms ++ '\n' :: (pad d ++ ['}']))

/-- The remaining elements of a non-empty array: each is preceded by the
item separator `,` and a newline plus indentation. -/
def dumpArrTail (d : Nat) : List JValue → List Char
  | [] => []
  | x :: xs => ',' :: '\n' :: (pad d ++ dumpVal d x ++ dumpArrTail d xs)

/-- The remaining members of a non-empty object. -/
def dumpObjTail (d : Nat) : List (String × JValue) → List Char
  | [] => []
  | m :: ms =>
      ',' :: '\n' :: (pad d ++ strChars m.1 ++ ':' :: ' ' :: dumpVal d m.2
        ++ dumpObjTail d ms)

end

/-- The full text `json.dump(v, f, indent=2, ensure_ascii=False)` writes. -/
def dump (v : JValue) : String := ⟨dumpVal 0 v⟩

/-! ### Model of `json.loads` / `json.load`

Restrictions of the model, none of which the program's own writes or any
claim exercises: numerals are integers only (no floats, `NaN` or
`Infinity`), and `\uXXXX` escapes must denote a Unicode scalar value
(Python would try to pair surrogates).  The encoder above never emits any
of these forms. -/

/-- The whitespace characters `json.loads` skips between tokens. -/
def isWsChar (c : Char) : Bool := c = ' ' || c = '\t' || c = '\n' || c = '\r'

/-- Drop leading JSON whitespace. -/
def skipWs : List Char → List Char
  | [] => []
  | c :: cs => if isWsChar c then skipWs cs else c :: cs

/-- Value of one hexadecimal digit character. -/
def hexValue (c : Char) : Option Nat :=
  if 48 ≤ c.toNat ∧ c.toNat ≤ 57 then some (c.toNat - 48)
  else if 97 ≤ c.toNat ∧ c.toNat ≤ 102 then some (c.toNat - 87)
  else if 65 ≤ c.toNat ∧ c.toNat ≤ 70 then some (c.toNat - 55)
  else none

/-- Decoding of a single-character escape. -/
def escDecode (e : Char) : Option Char :=
  if e = '"' then some '"'
  else if e = '\\' then some '\\'
  else if e = '/' then some '/'
  else if e = 'b' then some (Char.ofNat 8)
  else if e = 'f' then some (Char.ofNat 12)
  else if e = 'n' then some '\n'
  else if e = 'r' then some '\r'
  else if e = 't' then some '\t'
  else none

/-- Is `n` a Unicode scalar value (representable in a `Char`)? -/
def validCode (n : Nat) : Bool := n < 55296 || (57344 ≤ n && n < 1114112)

/-- Decode one escape sequence found after a backslash, returning the
character it denotes and the input after it. -/
def escSeq : List Char → Option (Char × List Char)
  | [] => none
  | e :: rest2 =>
    match escDecode e with
    | some ch => some (ch, rest2)
    | none =>
      if e = 'u' then
        match rest2 with
        | h1 :: h2 :: h3 :: h4 :: rest3 =>
          match hexValue h1, hexValue h2, hexValue h3, hexValue h4 with
          | some a, some b, some c2, some d2 =>
            let code := ((a * 16 + b) * 16 + c2) * 16 + d2
            if validCode code then some (Char.ofNat code, rest3) else none
          | _, _, _, _ => none
        | _ => none
      else none

/-- Scan the body of a JSON string literal after the opening quote,
returning the decoded characters and the input after the closing quote
(strict mode: raw control characters are rejected).  `fuel` only bounds the
recursion: each step consumes at least one character, so any fuel above the
input length is enough. -/
def strTok : Nat → List Char → Option (List Char × List Char)
  | 0, _ => none
  | f + 1, input =>
    match input with
    | [] => none
    | c :: rest =>
      if c = '"' then some ([], rest)
      else if c = '\\' then
        match escSeq rest with
        | some er => (strTok f er.2).map fun p => (er.1 :: p.1, p.2)
        | none => none
      else if c.toNat < 32 then none
      else (strTok f rest).map fun p => (c :: p.1, p.2)

/-- The string-literal scan with always-sufficient fuel. -/
def strBody (l : List Char) : Option (List Char × List Char) :=
  strTok (l.length + 1) l

/-- Consume a maximal run of decimal digits, folding them onto `a`. -/
def digitsAcc : List Char → Nat → Nat × List Char
  | [], a => (a, [])
  | c :: rest, a =>
    if c.isDigit then digitsAcc rest (a * 10 + (c.toNat - 48)) else (a, c :: rest)

/-- The natural-number part of a JSON numeral (a bare `0`, or a nonzero
leading digit followed by more digits). -/
def numBody : List Char → Option (Nat × List Char)
  | [] => none
  | c :: rest =>
    if c = '0' then some (0, rest)
    else if c.isDigit then some (digitsAcc rest (c.toNat - 48))
    else none

/-- An integer JSON numeral with optional leading minus sign. -/
def parseNum : List Char → Option (JValue × List Char)
  | [] => none
  | c :: rest =>
    if c = '-' then (numBody rest).map fun p => (.num (-(p.1 : Int)), p.2)
    else (numBody (c :: rest)).map fun p => (.num ((p.1 : Int)), p.2)

/-- Match the remaining characters of a keyword literal. -/
def litTail : List Char → List Char → Option (List Char)
  | [], input => some input
  | _ :: _, [] => none
  | l :: ls, i :: is => if i = l then litTail ls is else none

/-- One `"key": value` object member, given the value parser `pv`. -/
def parseKey (pv : List Char → Option (JValue × List Char)) (input : List Char) :
    Option ((String × JValue) × List Char) :=
  match skipWs input with
  | [] => none
  | c :: cs =>
    if c = '"' then
      (strBody cs).bind fun p =>
        match skipWs p.2 with
        | [] => none
        | c2 :: r2 =>
          if c2 = ':' then (pv r2).map fun q => ((⟨p.1⟩, q.1), q.2) else none
    else none

/-- After one array element: either the closing bracket, or a comma and
further elements. -/
def arrTail (pv : List Char → Option (JValue × List Char)) :
    Nat → List Char → Option (List JValue × List Char)
  | 0, _ => none
  | f + 1, input =>
    match skipWs input with
    | [] => none
    | c :: r =>
      if c = ']' then some ([], r)
      else if c = ',' then
        (pv r).bind fun p => (arrTail pv f p.2).map fun q => (p.1 :: q.1, q.2)
      else none

/-- After one object member: either the closing brace, or a comma and
further members. -/
def objTail (pv : List Char → Option (JValue × List Char)) :
    Nat → List Char → Option (List (String × JValue) × List Char)
  | 0, _ => none
  | f + 1, input =>
    match skipWs input with
    | [] => none
    | c :: r =>
      if c = '}' then some ([], r)
      else if c = ',' then
        (parseKey pv r).bind fun p =>
          (objTail pv f p.2).map fun q => (p.1 :: q.1, q.2)
      else none

/-- One JSON value; `fuel` only bounds the recursion and
`input length + 1` is always sufficient, since at least one character is
consumed before every recursive call. -/
def parseVal : Nat → List Char → Option (JValue × List Char)
  | 0, _ => none
  | f + 1, input =>
    match skipWs input with
    | [] => none
    | c :: cs =>
      if c = 'n' then (litTail ['u', 'l', 'l'] cs).map fun r => (.null, r)
      else if c = 't' then (litTail ['r', 'u', 'e'] cs).map fun r => (.bool true, r)
      else if c = 'f' then (litTail ['a', 'l', 's', 'e'] cs).map fun r => (.bool false, r)
      else if c = '"' then (strBody cs).map fun p => (.str ⟨p.1⟩, p.2)
      else if c = '-' || c.isDigit then parseNum (c :: cs)
      else if c = '[' then
        match skipWs cs with
        | [] => none
        | c2 :: r =>
          if c2 = ']' then some (.arr [], r)
          else
            (parseVal f (c2 :: r)).bind fun p =>
              (arrTail (fun i => parseVal f i) f p.2).map fun q =>
                (.arr (p.1 :: q.1), q.2)
      else if c = '{' then
        match skipWs cs with
        | [] => none
        | c2 :: r =>
          if c2 = '}' then some (.obj [], r)
          else
            (parseKey (fun i => parseVal f i) (c2 :: r)).bind fun p =>
              (objTail (fun i => parseVal f i) f p.2).map fun q =>
                (.obj (p.1 :: q.1), q.2)
      else none

/-- Model of `json.loads` (and of `json.load` on a file holding `s`):
parse one value and require only trailing whitespace after it. -/
def load (s : String) : Option JValue :=
  match parseVal (s.toList.length + 1) s.toList with
  | none => none
  | some p => if skipWs p.2 = [] then some p.1 else none

/-! ### The application (class `JSONFormGenerator`) -/

/-- One field's options in the schema (`opciones`): the `FieldSpec` shape of
the schema document.  `tipo` is `opciones.get("tipo")`, `regex` is
`opciones.get("regex")` (absent keys give `none`, Python `None`). -/
structure FieldSpec where
  tipo : Option String := none
  placeholder : String := ""
  regex : Option String := none
  min : Option Int := none
  max : Option Int := none
deriving DecidableEq

/-- The values sitting in the rendered widgets when the script runs: what
`st.text_input`, `st.number_input` and `st.checkbox` return for the field
named by the argument.  `texts` feeds `texto` fields, `listas` the
comma-separated `lista` fields. -/
structure Inputs where
  texts : String → String
  listas : String → String
  nums : String → Int
  checks : String → Bool

/-- Python dict assignment `m[k] = v` on an insertion-ordered mapping:
overwrite the entry holding the key, keeping its position, and append a new
entry otherwise (a dict never holds a key twice, so replacing the first
occurrence is the same as replacing the occurrence). -/
def dictSet : List (String × A) → String → A → List (String × A)
  | [], k, v => [(k, v)]
  | kv :: rest, k, v =>
    if kv.1 == k then (k, v) :: rest else kv :: dictSet rest k v

/-- Python dict lookup `m.get(k)`. -/
def dictGet : List (String × A) → String → Option A
  | [], _ => none
  | kv :: rest, k => if kv.1 == k then some kv.2 else dictGet rest k

/-- How many entries of `m` carry the key `k`. -/
def keyCount : List (String × A) → String → Nat
  | [], _ => 0
  | kv :: rest, k => (if kv.1 == k then 1 else 0) + keyCount rest k

/-- The characters `str.strip()` removes (the ASCII whitespace among them;
the program only ever strips around comma-separated words). -/
def pyWsChar (c : Char) : Bool :=
  c = ' ' || c = '\t' || c = '\n' || c = '\r' || c = Char.ofNat 11 || c = Char.ofNat 12

/-- Python `seg.strip()` on a character list: drop whitespace from both ends. -/
def stripChars (l : List Char) : List Char :=
  ((l.dropWhile pyWsChar).reverse.dropWhile pyWsChar).reverse

/-- Python `s.strip()`. -/
def pyStrip (s : String) : String := ⟨stripChars s.toList⟩

/-- Python `s.split(",")`: split at every comma, keeping empty segments. -/
def splitComma : List Char → List (List Char)
  | [] => [[]]
  | c :: cs =>
    if c = ',' then [] :: splitComma cs
    else
      match splitComma cs with
      | [] => [[c]]
      | g :: gs => (c :: g) :: gs

/-- The `lista` collection `[i.strip() for i in texto.split(",") if i.strip()]`:
strip each comma-separated segment and keep the non-empty results. -/
def parseLista (texto : String) : List String :=
  (splitComma texto.toList).filterMap fun seg =>
    if pyStrip ⟨seg⟩ = "" then none else some (pyStrip ⟨seg⟩)

/-- Method `validar_regex`: record `"Formato inválido para '<campo>'"` under `campo`
when `re.fullmatch(regex, valor)` fails; `fullmatch` is the oracle for
Python's anchored regex match. -/
def validar_regex (fullmatch : String → String → Bool) (errores : ErrorSet)
    (campo valor regex : String) : ErrorSet :=
  if fullmatch regex valor then errores
  else dictSet errores campo ("Formato inválido para '" ++ campo ++ "'")

/-- One iteration of the `render_form` loop for the field `campo` with
options `o`, acting on the state `(self.data, self.errores)`.  A `texto`
value is validated only when it is non-empty and the regex option is truthy
(present and itself non-empty); an unknown `tipo` only warns and stores
nothing. -/
def processField (fullmatch : String → String → Bool) (inp : Inputs)
    (st : Submission × ErrorSet) (campo : String) (o : FieldSpec) :
    Submission × ErrorSet :=
  match o.tipo with
  | none => st
  | some t =>
    if t = "texto" then
      let valor := inp.texts campo
      let errores :=
        if valor ≠ "" ∧ o.regex.getD "" ≠ "" then
          validar_regex fullmatch st.2 campo valor (o.regex.getD "")
        else st.2
      (dictSet st.1 campo (.vStr valor), errores)
    else if t = "numero" then
      (dictSet st.1 campo (.vNum (inp.nums campo)), st.2)
    else if t = "booleano" then
      (dictSet st.1 campo (.vBool (inp.checks campo)), st.2)
    else if t = "lista" then
      (dictSet st.1 campo (.vList (parseLista (inp.listas campo))), st.2)
    else st

/-- Method `render_form`: iterate the schema in declaration order, starting from
the freshly constructed empty `self.data` and `self.errores`. -/
def render_form (fullmatch : String → String → Bool) (inp : Inputs)
    (schema : List (String × FieldSpec)) : Submission × ErrorSet :=
  schema.foldl (fun st f => processField fullmatch inp st f.1 f.2) ([], [])

/-- Method `load_schema`: `json.load` on the schema file content; a decode failure
propagates (the constructor has no handler for it). -/
def load_schema (contenido : String) : Except String JValue :=
  match load contenido with
  | some v => .ok v
  | none => .error "json.JSONDecodeError"

/-- Method `guardar_historial` acting on the history file content (`none` when the
file does not exist): the decode error is swallowed and the log treated as
empty, the submission is appended, and the file rewritten.  When the file
holds valid JSON that is not an array, Python's `historial.append` raises;
that branch is the `.error` case. -/
def guardar_historial (file : Option String) (data : JValue) :
    Except String (Option String) :=
  let historial : JValue :=
    match file with
    | none => .arr []
    | some s =>
      match load s with
      | some v => v
      | none => .arr []
  match historial with
  | .arr xs => .ok (some (dump (.arr (xs ++ [data]))))
  | _ => .error "AttributeError"

/-- Method `eliminar_entrada_historial`: here `json.load` is not wrapped in
`try`, so a decode failure raises.  In range, the entry is removed and the
file rewritten; out of range nothing happens.  A valid-JSON non-array file
is collapsed to an error (Python would raise on `del` for every such value
the program can encounter). -/
def eliminar_entrada_historial (file : Option String) (index : Int) :
    Except String (Option String) :=
  match file with
  | none => .ok none
  | some s =>
    match load s with
    | none => .error "json.JSONDecodeError"
    | some (.arr xs) =>
      if 0 ≤ index ∧ index < (xs.length : Int) then
        .ok (some (dump (.arr (xs.eraseIdx index.toNat))))
      else .ok (some s)
    | some _ => .error "TypeError"

/-- Is this Python value falsy (`if not historial`)? -/
def jsonFalsy : JValue → Bool
  | .null => true
  | .bool b => !b
  | .num n => n == 0
  | .str s => s == ""
  | .arr xs => xs.isEmpty
  | .obj ms => ms.isEmpty

/-- Method `mostrar_historial`, reduced to the log it displays: a missing file or a
decode failure shows an empty history; a falsy loaded value shows nothing.
A truthy non-array is collapsed to an error (Python would raise slicing a
dict; a string file, which no claim exercises, would display its
characters). -/
def mostrar_historial (file : Option String) : Except String (List JValue) :=
  match file with
  | none => .ok []
  | some s =>
    match load s with
    | none => .ok []
    | some (.arr xs) => .ok xs
    | some v => if jsonFalsy v then .ok [] else .error "TypeError"

/-- A streamlit status message shown by `render_output`. -/
inductive StMsg where
  | success (m : String) : StMsg
  | warning (m : String) : StMsg
  | error (m : String) : StMsg
deriving DecidableEq

/-- The message shown for one `requests.post` outcome: `.ok code` is a
response with that status, `.error e` a raised transport exception. -/
def respuestaEnvio (post : Except String Nat) : StMsg :=
  match post with
  | .ok code =>
    if code = 200 then .success "✅ Datos enviados correctamente."
    else .warning ("⚠️ Error al enviar: Código " ++ toString code)
  | .error e => .error ("❌ Fallo al enviar: " ++ e)

/-- What the remote-send part of `render_output` does and shows.  The send
form only exists on the no-errors branch; `enviar` is the submit button,
`url` the entered URL (falsy when empty), and `oracle url data` the outcome
`requests.post(url, json=data)` would have. -/
structure EnvioResult where
  msg : Option StMsg
  posted : Bool
deriving DecidableEq

/-- The remote-send behaviour of `render_output`. -/
def render_output (errores : ErrorSet) (enviar : Bool) (url : String)
    (data : JValue) (oracle : String → JValue → Except String Nat) : EnvioResult :=
  if errores ≠ [] then ⟨none, false⟩
  else if enviar then
    if url ≠ "" then ⟨some (respuestaEnvio (oracle url data)), true⟩
    else ⟨some (.warning "⚠️ Debés ingresar una URL válida."), false⟩
  else ⟨none, false⟩

/-! ### Association-list lemmas for the Python dict model -/

/-- The keys of the mapping are pairwise distinct (a dict invariant). -/
def KeysNodup (m : List (String × A)) : Prop := (m.map Prod.fst).Nodup

theorem dictGet_set_self (m : List (String × A)) (k : String) (v : A) :
    dictGet (dictSet m k v) k = some v := by
  induction m with
  | nil => simp [dictSet, dictGet]
  | cons kv rest ih =>
    by_cases hk : (kv.1 == k) = true
    · simp [dictSet, dictGet, hk]
    · simp [dictSet, dictGet, hk, ih]

theorem dictGet_set_other (m : List (String × A)) (k k2 : String) (v : A)
    (hne : k2 ≠ k) : dictGet (dictSet m k2 v) k = dictGet m k := by
  have hne2 : ¬((k2 == k) = true) := by simpa using hne
  induction m with
  | nil => simp [dictSet, dictGet, hne2]
  | cons kv rest ih =>
    by_cases hk : (kv.1 == k2) = true
    · have hkv : kv.1 = k2 := by simpa using hk
      simp [dictSet, dictGet, hk, hne2, hkv]
    · simp [dictSet, dictGet, hk, ih]

theorem keyCount_set_other (m : List (String × A)) (k k2 : String) (v : A)
    (hne : k2 ≠ k) : keyCount (dictSet m k2 v) k = keyCount m k := by
  have hne2 : ¬((k2 == k) = true) := by simpa using hne
  induction m with
  | nil => simp [dictSet, keyCount, hne2]
  | cons kv rest ih =>
    by_cases hk : (kv.1 == k2) = true
    · have hkv : kv.1 = k2 := by simpa using hk
      simp [dictSet, keyCount, hk, hne2, hkv]
    · simp [dictSet, keyCount, hk, ih]

theorem keyCount_zero_of_not_mem {m : List (String × A)} {k : String}
    (h : k ∉ m.map Prod.fst) : keyCount m k = 0 := by
  induction m with
  | nil => simp [keyCount]
  | cons kv rest ih =>
    have h1 : kv.1 ≠ k := fun hc => h (by simp [hc])
    have h2 : k ∉ rest.map Prod.fst := fun hc => h (by simp [hc])
    have h1b : ¬((kv.1 == k) = true) := by simpa using h1
    simp [keyCount, h1b, ih h2]

theorem keyCount_set_self {m : List (String × A)} (k : String) (v : A)
    (h : KeysNodup m) : keyCount (dictSet m k v) k = 1 := by
  induction m with
  | nil => simp [dictSet, keyCount]
  | cons kv rest ih =>
    rcases List.nodup_cons.mp h with ⟨hnotin, hrest⟩
    by_cases hk : (kv.1 == k) = true
    · have hkv : kv.1 = k := by simpa using hk
      have : keyCount rest k = 0 := keyCount_zero_of_not_mem (hkv ▸ hnotin)
      simp [dictSet, keyCount, hk, this]
    · simp [dictSet, keyCount, hk, ih hrest]

theorem mem_keys_dictSet {m : List (String × A)} {k a : String} {v : A}
    (h : a ∈ (dictSet m k v).map Prod.fst) : a ∈ m.map Prod.fst ∨ a = k := by
  induction m with
  | nil => simpa [dictSet] using h
  | cons kv rest ih =>
    by_cases hk : (kv.1 == k) = true
    · have hkv : kv.1 = k := by simpa using hk
      rcases (by simpa [dictSet, hk] using h : a = k ∨ a ∈ rest.map Prod.fst) with h1 | h1
      · exact Or.inr h1
      · exact Or.inl (by simp [h1])
    · rcases (by simpa [dictSet, hk] using h : a = kv.1 ∨ a ∈ (dictSet rest k v).map Prod.fst) with h1 | h1
      · exact Or.inl (by simp [h1])
      · rcases ih h1 with h2 | h2
        · exact Or.inl (by simp [h2])
        · exact Or.inr h2

theorem dictSet_keysNodup {m : List (String × A)} (k : String) (v : A)
    (h : KeysNodup m) : KeysNodup (dictSet m k v) := by
  induction m with
  | nil => simp [dictSet, KeysNodup]
  | cons kv rest ih =>
    rcases List.nodup_cons.mp h with ⟨hnotin, hrest⟩
    by_cases hk : (kv.1 == k) = true
    · have hkv : kv.1 = k := by simpa using hk
      show ((dictSet (kv :: rest) k v).map Prod.fst).Nodup
      simp only [dictSet, hk, if_pos, List.map_cons]
      exact List.nodup_cons.mpr ⟨hkv ▸ hnotin, hrest⟩
    · have hne : kv.1 ≠ k := by simpa using hk
      show ((dictSet (kv :: rest) k v).map Prod.fst).Nodup
      simp only [dictSet, hk, Bool.false_eq_true, if_neg, not_false_iff, List.map_cons]
      refine List.nodup_cons.mpr ⟨?_, ih hrest⟩
      intro hc
      rcases mem_keys_dictSet hc with h1 | h1
      · exact hnotin h1
      · exact hne h1

/-! ### The `render_form` loop: one field's writes do not touch other keys -/

theorem processField_other (fm : String → String → Bool) (inp : Inputs)
    (st : Submission × ErrorSet) (campo campo2 : String) (o : FieldSpec)
    (hne : campo2 ≠ campo) :
    dictGet (processField fm inp st campo2 o).1 campo = dictGet st.1 campo ∧
    dictGet (processField fm inp st campo2 o).2 campo = dictGet st.2 campo ∧
    keyCount (processField fm inp st campo2 o).2 campo = keyCount st.2 campo := by
  have g1 : ∀ (m : List (String × Value)) v,
      dictGet (dictSet m campo2 v) campo = dictGet m campo :=
    fun m v => dictGet_set_other m campo campo2 v hne
  have g2 : ∀ (m : List (String × String)) v,
      dictGet (dictSet m campo2 v) campo = dictGet m campo :=
    fun m v => dictGet_set_other m campo campo2 v hne
  have g3 : ∀ (m : List (String × String)) v,
      keyCount (dictSet m campo2 v) campo = keyCount m campo :=
    fun m v => keyCount_set_other m campo campo2 v hne
  rcases o with ⟨tipo, ph, rgx, mn, mx⟩
  rcases tipo with _ | t
  · simp [processField]
  · simp only [processField, validar_regex]
    split_ifs <;> simp [g1, g2, g3]

theorem processField_keysNodup (fm : String → String → Bool) (inp : Inputs)
    (st : Submission × ErrorSet) (campo : String) (o : FieldSpec)
    (h1 : KeysNodup st.1) (h2 : KeysNodup st.2) :
    KeysNodup (processField fm inp st campo o).1 ∧
    KeysNodup (processField fm inp st campo o).2 := by
  rcases o with ⟨tipo, ph, rgx, mn, mx⟩
  rcases tipo with _ | t
  · exact ⟨h1, h2⟩
  · simp only [processField, validar_regex]
    split_ifs <;>
      exact ⟨by first | exact dictSet_keysNodup _ _ h1 | exact h1,
             by first | exact dictSet_keysNodup _ _ h2 | exact h2⟩

theorem renderFold_other (fm : String → String → Bool) (inp : Inputs)
    (fields : List (String × FieldSpec)) (st : Submission × ErrorSet)
    (campo : String) (h : campo ∉ fields.map Prod.fst) :
    dictGet (fields.foldl (fun st f => processField fm inp st f.1 f.2) st).1 campo
      = dictGet st.1 campo ∧
    dictGet (fields.foldl (fun st f => processField fm inp st f.1 f.2) st).2 campo
      = dictGet st.2 campo ∧
    keyCount (fields.foldl (fun st f => processField fm inp st f.1 f.2) st).2 campo
      = keyCount st.2 campo := by
  induction fields generalizing st with
  | nil => simp
  | cons f rest ih =>
    have hne : f.1 ≠ campo := fun hc => h (by simp [hc])
    have hrest : campo ∉ rest.map Prod.fst := fun hc => h (by simp [hc])
    rcases processField_other fm inp st campo f.1 f.2 hne with ⟨p1, p2, p3⟩
    rcases ih (processField fm inp st f.1 f.2) hrest with ⟨q1, q2, q3⟩
    simp only [List.foldl_cons]
    exact ⟨q1.trans p1, q2.trans p2, q3.trans p3⟩

theorem renderFold_keysNodup (fm : String → String → Bool) (inp : Inputs)
    (fields : List (String × FieldSpec)) (st : Submission × ErrorSet)
    (h1 : KeysNodup st.1) (h2 : KeysNodup st.2) :
    KeysNodup (fields.foldl (fun st f => processField fm inp st f.1 f.2) st).1 ∧
    KeysNodup (fields.foldl (fun st f => processField fm inp st f.1 f.2) st).2 := by
  induction fields generalizing st with
  | nil => exact ⟨h1, h2⟩
  | cons f rest ih =>
    rcases processField_keysNodup fm inp st f.1 f.2 h1 h2 with ⟨p1, p2⟩
    simpa only [List.foldl_cons] using ih (processField fm inp st f.1 f.2) p1 p2

/-- Splitting the schema at a field whose key occurs once. -/
theorem schema_split {schema : List (String × FieldSpec)} {campo : String}
    {o : FieldSpec} (hnd : (schema.map Prod.fst).Nodup)
    (hmem : (campo, o) ∈ schema) :
    ∃ pre post, schema = pre ++ (campo, o) :: post ∧
      campo ∉ pre.map Prod.fst ∧ campo ∉ post.map Prod.fst := by
  rcases List.append_of_mem hmem with ⟨pre, post, rfl⟩
  have h2 : (pre.map Prod.fst ++ campo :: post.map Prod.fst).Nodup := by
    rw [List.map_append, List.map_cons] at hnd
    exact hnd
  rcases List.nodup_append.mp h2 with ⟨hpre, hcp, hdisj⟩
  refine ⟨pre, post, rfl, ?_, ?_⟩
  · exact fun hc => hdisj hc (by simp)
  · exact (List.nodup_cons.mp hcp).1

/-- The `lista` comprehension written as strip-then-filter. -/
theorem parseLista_eq (t : String) :
    parseLista t
      = ((splitComma t.toList).map fun seg => pyStrip ⟨seg⟩).filter fun s => s != "" := by
  unfold parseLista
  generalize splitComma t.toList = segs
  induction segs with
  | nil => simp
  | cons seg rest ih =>
    by_cases h : pyStrip ⟨seg⟩ = ""
    · simp [List.filterMap_cons, List.filter_cons, h, ih]
    · simp [List.filterMap_cons, List.filter_cons, h, ih]

/-- C1 (amended): for a `texto` field with a truthy (non-empty) regex and a
non-empty entered value, a failed full match records exactly one error entry
for the field, with message `Formato inválido para '<name>'`, while the
literal value is stored regardless; a successful full match records no error
for the field. -/
theorem claim_C1 (fm : String → String → Bool) (inp : Inputs)
    (schema : List (String × FieldSpec)) (campo : String) (o : FieldSpec)
    (rgx : String)
    (hnd : (schema.map Prod.fst).Nodup)
    (hmem : (campo, o) ∈ schema)
    (htipo : o.tipo = some "texto")
    (hrgx : o.regex = some rgx) (hrne : rgx ≠ "")
    (hval : inp.texts campo ≠ "") :
    dictGet (render_form fm inp schema).1 campo
        = some (.vStr (inp.texts campo)) ∧
    (if fm rgx (inp.texts campo) then
      keyCount (render_form fm inp schema).2 campo = 0
    else
      keyCount (render_form fm inp schema).2 campo = 1 ∧
      dictGet (render_form fm inp schema).2 campo
        = some ("Formato inválido para '" ++ campo ++ "'")) := by
  rcases schema_split hnd hmem with ⟨pre, post, rfl, hpre, hpost⟩
  unfold render_form
  rw [List.foldl_append, List.foldl_cons]
  rcases renderFold_other fm inp pre ([], []) campo hpre with ⟨a1, a2, a3⟩
  rcases renderFold_keysNodup fm inp pre ([], [])
    (by simp [KeysNodup]) (by simp [KeysNodup]) with ⟨n1, n2⟩
  set st1 := pre.foldl (fun st f => processField fm inp st f.1 f.2) ([], []) with hst1
  have hstep : processField fm inp st1 campo o
      = (dictSet st1.1 campo (.vStr (inp.texts campo)),
         validar_regex fm st1.2 campo (inp.texts campo) rgx) := by
    simp [processField, htipo, hrgx, hval, hrne]
  rw [hstep]
  by_cases hfm : fm rgx (inp.texts campo) = true
  · have hval2 : validar_regex fm st1.2 campo (inp.texts campo) rgx = st1.2 := by
      simp [validar_regex, hfm]
    rw [hval2, if_pos hfm]
    rcases renderFold_other fm inp post
      (dictSet st1.1 campo (.vStr (inp.texts campo)), st1.2) campo hpost with ⟨b1, b2, b3⟩
    constructor
    · rw [b1]
      exact dictGet_set_self st1.1 campo (.vStr (inp.texts campo))
    · rw [b3]
      simpa [keyCount] using a3
  · have hval2 : validar_regex fm st1.2 campo (inp.texts campo) rgx
        = dictSet st1.2 campo ("Formato inválido para '" ++ campo ++ "'") := by
      simp [validar_regex, hfm]
    rw [hval2, if_neg hfm]
    rcases renderFold_other fm inp post
      (dictSet st1.1 campo (.vStr (inp.texts campo)),
       dictSet st1.2 campo ("Formato inválido para '" ++ campo ++ "'")) campo hpost with
      ⟨b1, b2, b3⟩
    refine ⟨?_, ?_, ?_⟩
    · rw [b1]
      exact dictGet_set_self st1.1 campo (.vStr (inp.texts campo))
    · rw [b3]
      exact keyCount_set_self campo _ n2
    · rw [b2]
      exact dictGet_set_self st1.2 campo _

/-- Witness for C1 at a concrete schema and inputs: the matching case (the
literal regex `hola` against the value `hola`) stores the value and records
no error. -/
theorem claim_C1_witness :
    dictGet (render_form (fun r v => r == v)
        ⟨fun _ => "hola", fun _ => "", fun _ => 0, fun _ => false⟩
        [("saludo", ⟨some "texto", "", some "hola", none, none⟩)]).1 "saludo"
      = some (.vStr "hola") ∧
    keyCount (render_form (fun r v => r == v)
        ⟨fun _ => "hola", fun _ => "", fun _ => 0, fun _ => false⟩
        [("saludo", ⟨some "texto", "", some "hola", none, none⟩)]).2 "saludo" = 0 := by
  have h := claim_C1 (fun r v => r == v)
    ⟨fun _ => "hola", fun _ => "", fun _ => 0, fun _ => false⟩
    [("saludo", ⟨some "texto", "", some "hola", none, none⟩)]
    "saludo" ⟨some "texto", "", some "hola", none, none⟩ "hola"
    (by decide) (by decide) rfl rfl (by decide) (by decide)
  simpa using h

/-- C1, as stated, is false on the code: a failed match is recorded with the
program's Spanish message `Formato inválido para 'saludo'`, not with the
message `Invalid format for 'saludo'` the claim quotes (here the oracle is
exact matching of the metacharacter-free pattern `hola`, which is what
`re.fullmatch("hola", "chau")` does). -/
theorem claim_C1_counterexample :
    dictGet (render_form (fun r v => r == v)
        ⟨fun _ => "chau", fun _ => "", fun _ => 0, fun _ => false⟩
        [("saludo", ⟨some "texto", "", some "hola", none, none⟩)]).2 "saludo"
      = some "Formato inválido para 'saludo'" ∧
    dictGet (render_form (fun r v => r == v)
        ⟨fun _ => "chau", fun _ => "", fun _ => 0, fun _ => false⟩
        [("saludo", ⟨some "texto", "", some "hola", none, none⟩)]).2 "saludo"
      ≠ some "Invalid format for 'saludo'" := by
  constructor
  · rfl
  · decide

/-- C2: a `lista` field stores the comma-split, stripped, non-empty segments
of the entered text, in order; the comprehension equals
split-then-strip-then-drop-empties, and on `"a, b,,c "` it yields
`["a", "b", "c"]`. -/
theorem claim_C2 (fm : String → String → Bool) (inp : Inputs)
    (schema : List (String × FieldSpec)) (campo : String) (o : FieldSpec)
    (t : String)
    (hnd : (schema.map Prod.fst).Nodup)
    (hmem : (campo, o) ∈ schema)
    (htipo : o.tipo = some "lista") :
    dictGet (render_form fm inp schema).1 campo
        = some (.vList (parseLista (inp.listas campo))) ∧
    parseLista t
      = ((splitComma t.toList).map fun seg => pyStrip ⟨seg⟩).filter (fun s => s != "") ∧
    parseLista "a, b,,c " = ["a", "b", "c"] := by
  refine ⟨?_, parseLista_eq t, by decide⟩
  rcases schema_split hnd hmem with ⟨pre, post, rfl, hpre, hpost⟩
  unfold render_form
  rw [List.foldl_append, List.foldl_cons]
  set st1 := pre.foldl (fun st f => processField fm inp st f.1 f.2) ([], []) with hst1
  have hstep : processField fm inp st1 campo o
      = (dictSet st1.1 campo (.vList (parseLista (inp.listas campo))), st1.2) := by
    simp [processField, htipo]
  rw [hstep]
  rcases renderFold_other fm inp post
    (dictSet st1.1 campo (.vList (parseLista (inp.listas campo))), st1.2) campo hpost with
    ⟨b1, b2, b3⟩
  rw [b1]
  exact dictGet_set_self st1.1 campo _

/-- Witness for C2 at a concrete schema: the field `tags` holding
`"a, b,,c "` is stored as `["a", "b", "c"]`. -/
theorem claim_C2_witness :
    dictGet (render_form (fun _ _ => true)
        ⟨fun _ => "", fun _ => "a, b,,c ", fun _ => 0, fun _ => false⟩
        [("tags", ⟨some "lista", "", none, none, none⟩)]).1 "tags"
      = some (.vList ["a", "b", "c"]) := by
  have h := claim_C2 (fun _ _ => true)
    ⟨fun _ => "", fun _ => "a, b,,c ", fun _ => 0, fun _ => false⟩
    [("tags", ⟨some "lista", "", none, none, none⟩)]
    "tags" ⟨some "lista", "", none, none, none⟩ "x"
    (by decide) (by decide) rfl
  rcases h with ⟨h1, _, _⟩
  rw [h1]
  decide

/-! ### History store and remote submission claims -/

/-- C5 (amended): append and list tolerate both a missing history file and
undecodable content by treating the log as empty; delete tolerates a
missing file (it is a no-op), but on undecodable content delete raises the
decode error, because `eliminar_entrada_historial` calls `json.load`
without a `try` handler. -/
theorem claim_C5 (s : String) (d : JValue) (i : Int) (h : load s = none) :
    guardar_historial (some s) d = .ok (some (dump (.arr [d]))) ∧
    mostrar_historial (some s) = .ok [] ∧
    eliminar_entrada_historial (some s) i = .error "json.JSONDecodeError" ∧
    guardar_historial none d = .ok (some (dump (.arr [d]))) ∧
    mostrar_historial none = .ok [] ∧
    eliminar_entrada_historial none i = .ok none := by
  unfold guardar_historial mostrar_historial eliminar_entrada_historial
  simp [h]

/-- Witness for C5 on concrete undecodable content. -/
theorem claim_C5_witness :
    guardar_historial (some "oops") (.num 1) = .ok (some (dump (.arr [.num 1]))) ∧
    mostrar_historial (some "oops") = .ok [] ∧
    eliminar_entrada_historial (some "oops") 0 = .error "json.JSONDecodeError" ∧
    guardar_historial none (.num 1) = .ok (some (dump (.arr [.num 1]))) ∧
    mostrar_historial none = .ok [] ∧
    eliminar_entrada_historial none 0 = .ok none :=
  claim_C5 "oops" (.num 1) 0 rfl

/-- C5, as stated, is false on the code: the delete operation does not
treat undecodable history content as an empty log; its unguarded
`json.load` raises, and the error reaches the caller. -/
theorem claim_C5_counterexample :
    eliminar_entrada_historial (some "historial corrupto") 0
      = .error "json.JSONDecodeError" := rfl

/-- C6 (amended): the schema loader fails with the parse error exactly when
the content is not valid JSON; whatever value the content parses to —
object or not — is returned as loaded. -/
theorem claim_C6 (c : String) (v : JValue) :
    (load_schema c = .error "json.JSONDecodeError" ↔ load c = none) ∧
    (load c = some v → load_schema c = .ok v) := by
  unfold load_schema
  rcases h : load c with _ | w
  · simp
  · simp

/-- Witness for C6 on a concrete object schema. -/
theorem claim_C6_witness :
    load "{}" = some (.obj []) ∧ load_schema "{}" = .ok (.obj []) :=
  ⟨rfl, (claim_C6 "{}" (.obj [])).2 rfl⟩

/-- C6, as stated, is false on the code: `load_schema` performs no
top-level-object check, so valid JSON whose top level is an array is
returned successfully instead of failing with a parse error. -/
theorem claim_C6_counterexample :
    load_schema "[1, 2]" = .ok (.arr [.num 1, .num 2]) := rfl

/-- C7: when the send form is submitted with a non-empty URL, the success
message is shown exactly when the response status is 200; any other status
is shown as the warning naming the status code, and a raised transport
exception is shown as the error naming it; in every case a message is
produced (nothing propagates). -/
theorem claim_C7 (url : String) (data : JValue)
    (oracle : String → JValue → Except String Nat) (hurl : url ≠ "") :
    (render_output [] true url data oracle).msg
      = some (match oracle url data with
          | .ok code =>
            if code = 200 then StMsg.success "✅ Datos enviados correctamente."
            else StMsg.warning ("⚠️ Error al enviar: Código " ++ toString code)
          | .error e => StMsg.error ("❌ Fallo al enviar: " ++ e)) ∧
    ((render_output [] true url data oracle).msg
        = some (StMsg.success "✅ Datos enviados correctamente.")
      ↔ oracle url data = .ok 200) := by
  have hred : render_output [] true url data oracle
      = ⟨some (respuestaEnvio (oracle url data)), true⟩ := by
    simp [render_output, hurl]
  rw [hred]
  constructor
  · unfold respuestaEnvio
    rcases oracle url data with e | code <;> simp
  · unfold respuestaEnvio
    rcases oracle url data with e | code
    · simp
    · by_cases hc : code = 200
      · simp [hc]
      · simp [hc]

/-- Witness for C7: a 404 response is reported as the warning, not as
success. -/
theorem claim_C7_witness :
    (render_output [] true "http://x" .null (fun _ _ => .ok 404)).msg
      = some (StMsg.warning ("⚠️ Error al enviar: Código " ++ toString (404 : Nat))) ∧
    ((render_output [] true "http://x" .null (fun _ _ => .ok 404)).msg
        = some (StMsg.success "✅ Datos enviados correctamente.")
      ↔ (Except.ok 404 : Except String Nat) = .ok 200) := by
  have h := claim_C7 "http://x" .null (fun _ _ => .ok 404) (by decide)
  simpa using h

/-- C10: submitting the send form with an empty URL issues no POST and
shows the warning asking for a valid URL; a POST is issued exactly when
there are no form errors, the submit button was pressed, and the URL is
non-empty. -/
theorem claim_C10 (errores : ErrorSet) (enviar : Bool) (url : String)
    (data : JValue) (oracle : String → JValue → Except String Nat) :
    render_output [] true "" data oracle
      = ⟨some (.warning "⚠️ Debés ingresar una URL válida."), false⟩ ∧
    ((render_output errores enviar url data oracle).posted = true
      ↔ errores = [] ∧ enviar = true ∧ url ≠ "") := by
  constructor
  · simp [render_output]
  · unfold render_output
    by_cases he : errores = []
    · by_cases hb : enviar = true
      · by_cases hu : url = ""
        · simp [he, hb, hu]
        · simp [he, hb, hu]
      · simp [he, hb]
    · simp [he]

/-- C9: when the history file parses as a JSON array, append rewrites the
file with exactly the old array plus the new entry at the end: every
previously stored entry keeps its value and its index, and nothing else in
the array changes. -/
theorem claim_C9 (s : String) (xs : List JValue) (data : JValue) (i : Nat)
    (h : load s = some (.arr xs)) (hi : i < xs.length) :
    guardar_historial (some s) data = .ok (some (dump (.arr (xs ++ [data])))) ∧
    (xs ++ [data]).length = xs.length + 1 ∧
    (xs ++ [data]).getLast? = some data ∧
    (xs ++ [data])[i]? = xs[i]? := by
  refine ⟨?_, by simp, by simp, ?_⟩
  · unfold guardar_historial
    simp [h]
  · rw [List.getElem?_append, if_pos hi]

/-- Witness for C9: appending to a one-entry history keeps entry 0. -/
theorem claim_C9_witness :
    guardar_historial (some "[1]") (.num 2)
      = .ok (some (dump (.arr ([.num 1] ++ [.num 2])))) ∧
    ([JValue.num 1] ++ [JValue.num 2]).length = [JValue.num 1].length + 1 ∧
    ([JValue.num 1] ++ [JValue.num 2]).getLast? = some (.num 2) ∧
    ([JValue.num 1] ++ [JValue.num 2])[0]? = [JValue.num 1][0]? :=
  claim_C9 "[1]" [.num 1] (.num 2) 0 rfl (by decide)

/-- Witness for C10 at concrete inputs: empty URL warns without posting;
a non-empty URL with the button pressed and no errors posts. -/
theorem claim_C10_witness :
    render_output [] true "" (.num 1) (fun _ _ => .ok 200)
      = ⟨some (.warning "⚠️ Debés ingresar una URL válida."), false⟩ ∧
    ((render_output [] true "http://x" (.num 1) (fun _ _ => .ok 200)).posted = true
      ↔ ([] : ErrorSet) = [] ∧ true = true ∧ ("http://x" : String) ≠ "") :=
  claim_C10 [] true "http://x" (.num 1) (fun _ _ => .ok 200)

/-! ### The encoder output parses back: token-level lemmas -/

theorem skipWs_cons_not {c : Char} (l : List Char) (h : isWsChar c = false) :
    skipWs (c :: l) = c :: l := by
  simp [skipWs, h]

theorem skipWs_replicate_space (n : Nat) (l : List Char) :
    skipWs (List.replicate n ' ' ++ l) = skipWs l := by
  induction n with
  | zero => simp
  | succ m ih => simpa [List.replicate_succ, skipWs, isWsChar] using ih

theorem skipWs_pad (d : Nat) (l : List Char) : skipWs (pad d ++ l) = skipWs l := by
  unfold pad
  exact skipWs_replicate_space _ l

theorem skipWs_newline (l : List Char) : skipWs ('\n' :: l) = skipWs l := by
  simp [skipWs, isWsChar]

theorem charOfNat_toNat {c : Char} (h : c.toNat < 55296) :
    Char.ofNat c.toNat = c := by
  have hv : c.toNat.isValidChar := Or.inl h
  simp [Char.ofNat, hv]
  apply Char.eq_of_val_eq
  apply UInt32.eq_of_toBitVec_eq
  apply BitVec.eq_of_toNat_eq
  simp [Char.ofNatAux, Char.toNat]
  rfl

theorem toNat_charOfNat {n : Nat} (h : n < 55296) : (Char.ofNat n).toNat = n := by
  have hv : n.isValidChar := Or.inl h
  simp [Char.ofNat, hv]
  simp [Char.ofNatAux, Char.toNat]
  rfl

theorem hexValue_hexDig {n : Nat} (h : n < 16) : hexValue (hexDig n) = some n := by
  interval_cases n <;> decide

theorem isDigit_bounds {c : Char} (h : c.isDigit = true) :
    48 ≤ c.toNat ∧ c.toNat ≤ 57 := by
  simp [Char.isDigit] at h
  exact h

theorem digit_not_ws {c : Char} (h : c.isDigit = true) : isWsChar c = false := by
  rcases isDigit_bounds h with ⟨h1, h2⟩
  rw [Bool.eq_false_iff]
  intro hws
  simp [isWsChar] at hws
  rcases hws with ((hc | hc) | hc) | hc <;> subst hc <;> exact absurd h (by decide)

/-- The first character of the input is not a decimal digit (so a maximal
digit run ends there). -/
def noDigitHead : List Char → Bool
  | [] => true
  | c :: _ => !c.isDigit

/-- Rebuilding a string from its characters undoes `String.toList`. -/
theorem stringMk_toList (s : String) : (⟨s.toList⟩ : String) = s := rfl

/-- The one-step unfolding of the fueled string scan. -/
theorem strTok_succ (f : Nat) (input : List Char) :
    strTok (f + 1) input =
      (match input with
      | [] => none
      | c :: rest =>
        if c = '"' then some ([], rest)
        else if c = '\\' then
          match escSeq rest with
          | some er => (strTok f er.2).map fun p => (er.1 :: p.1, p.2)
          | none => none
        else if c.toNat < 32 then none
        else (strTok f rest).map fun p => (c :: p.1, p.2)) := rfl

theorem strTok_escape (cs : List Char) : ∀ (f : Nat) (rest : List Char),
    ((cs.map escChar).flatten ++ '"' :: rest).length < f →
    strTok f ((cs.map escChar).flatten ++ '"' :: rest) = some (cs, rest) := by
  induction cs with
  | nil =>
    intro f rest hf
    rcases f with _ | f
    · exact absurd hf (by omega)
    · show strTok (f + 1) ('"' :: rest) = some ([], rest)
      rw [strTok_succ]
      simp
  | cons c cs ih =>
    intro f rest hf
    rcases f with _ | f
    · exact absurd hf (by omega)
    have hsh : (List.map escChar (c :: cs)).flatten ++ '"' :: rest
        = escChar c ++ ((List.map escChar cs).flatten ++ '"' :: rest) := by
      simp
    rw [hsh] at hf ⊢
    by_cases h1 : c = '"'
    · subst h1
      have hf2 : ((List.map escChar cs).flatten ++ '"' :: rest).length < f := by
        simp [escChar] at hf ⊢
        omega
      rw [show escChar '"' = ['\\', '"'] from rfl]
      show strTok (f + 1) ('\\' :: '"' :: ((List.map escChar cs).flatten ++ '"' :: rest))
        = _
      rw [strTok_succ]
      simp [escSeq, escDecode, ih f rest hf2]
    · by_cases h2 : c = '\\'
      · subst h2
        have hf2 : ((List.map escChar cs).flatten ++ '"' :: rest).length < f := by
          simp [escChar] at hf ⊢
          omega
        rw [show escChar '\\' = ['\\', '\\'] from rfl]
        show strTok (f + 1) ('\\' :: '\\' :: ((List.map escChar cs).flatten ++ '"' :: rest))
          = _
        rw [strTok_succ]
        simp [escSeq, escDecode, ih f rest hf2]
      · by_cases h3 : c = '\n'
        · subst h3
          have hf2 : ((List.map escChar cs).flatten ++ '"' :: rest).length < f := by
            simp [escChar] at hf ⊢
            omega
          rw [show escChar '\n' = ['\\', 'n'] from rfl]
          show strTok (f + 1) ('\\' :: 'n' :: ((List.map escChar cs).flatten ++ '"' :: rest))
            = _
          rw [strTok_succ]
          simp [escSeq, escDecode, ih f rest hf2]
        · by_cases h4 : c = '\r'
          · subst h4
            have hf2 : ((List.map escChar cs).flatten ++ '"' :: rest).length < f := by
              simp [escChar] at hf ⊢
              omega
            rw [show escChar '\r' = ['\\', 'r'] from rfl]
            show strTok (f + 1) ('\\' :: 'r' :: ((List.map escChar cs).flatten ++ '"' :: rest))
              = _
            rw [strTok_succ]
            simp [escSeq, escDecode, ih f rest hf2]
          · by_cases h5 : c = '\t'
            · subst h5
              have hf2 : ((List.map escChar cs).flatten ++ '"' :: rest).length < f := by
                simp [escChar] at hf ⊢
                omega
              rw [show escChar '\t' = ['\\', 't'] from rfl]
              show strTok (f + 1) ('\\' :: 't' :: ((List.map escChar cs).flatten ++ '"' :: rest))
                = _
              rw [strTok_succ]
              simp [escSeq, escDecode, ih f rest hf2]
            · by_cases h6 : c = Char.ofNat 8
              · subst h6
                have hf2 : ((List.map escChar cs).flatten ++ '"' :: rest).length < f := by
                  simp [escChar] at hf ⊢
                  omega
                rw [show escChar (Char.ofNat 8) = ['\\', 'b'] from rfl]
                show strTok (f + 1)
                    ('\\' :: 'b' :: ((List.map escChar cs).flatten ++ '"' :: rest)) = _
                rw [strTok_succ]
                simp [escSeq, escDecode, ih f rest hf2]
              · by_cases h7 : c = Char.ofNat 12
                · subst h7
                  have hf2 : ((List.map escChar cs).flatten ++ '"' :: rest).length < f := by
                    simp [escChar] at hf ⊢
                    omega
                  rw [show escChar (Char.ofNat 12) = ['\\', 'f'] from rfl]
                  show strTok (f + 1)
                      ('\\' :: 'f' :: ((List.map escChar cs).flatten ++ '"' :: rest)) = _
                  rw [strTok_succ]
                  simp [escSeq, escDecode, ih f rest hf2]
                · by_cases h8 : c.toNat < 32
                  · have hesc : escChar c
                        = ['\\', 'u', '0', '0', hexDig (c.toNat / 16),
                           hexDig (c.toNat % 16)] := by
                      simp [escChar, h1, h2, h3, h4, h5, h6, h7, h8]
                    have hf2 : ((List.map escChar cs).flatten ++ '"' :: rest).length < f := by
                      rw [hesc] at hf
                      simp at hf ⊢
                      omega
                    have hdiv : c.toNat / 16 < 16 := by omega
                    have hmod : c.toNat % 16 < 16 := Nat.mod_lt _ (by omega)
                    have hx1 : ((0 * 16 + 0) * 16 + c.toNat / 16) * 16 + c.toNat % 16
                        = c.toNat := by omega
                    have hx2 : (c.toNat / 16) * 16 + c.toNat % 16 = c.toNat := by omega
                    have hx3 : 16 * (c.toNat / 16) + c.toNat % 16 = c.toNat := by omega
                    have hvc : validCode c.toNat = true := by
                      simp [validCode]
                      omega
                    have hco : Char.ofNat c.toNat = c := charOfNat_toNat (by omega)
                    rw [hesc]
                    rw [strTok_succ]
                    simp [escSeq, escDecode, hexValue_hexDig hdiv, hexValue_hexDig hmod,
                      show hexValue '0' = some 0 from rfl,
                      hx1, hx2, hx3, hvc, hco, ih f rest hf2]
                  · have hesc : escChar c = [c] := by
                      simp [escChar, h1, h2, h3, h4, h5, h6, h7, h8]
                    have hf2 : ((List.map escChar cs).flatten ++ '"' :: rest).length < f := by
                      rw [hesc] at hf
                      simp at hf ⊢
                      omega
                    rw [hesc]
                    show strTok (f + 1)
                        (c :: ((List.map escChar cs).flatten ++ '"' :: rest)) = _
                    rw [strTok_succ]
                    simp only [if_neg h1, if_neg h2, if_neg (by omega : ¬ c.toNat < 32)]
                    rw [ih f rest hf2]
                    rfl

theorem litTail_self (lit rest : List Char) : litTail lit (lit ++ rest) = some rest := by
  induction lit with
  | nil => rfl
  | cons c cs ih => simp [litTail, ih]

/-! ### Numerals round-trip -/

theorem natDigs_zero (f : Nat) : natDigs f 0 = [] := by
  cases f <;> simp [natDigs]

theorem isDigit_digitChar {m : Nat} (h : m < 10) : (digitChar m).isDigit = true := by
  interval_cases m <;> decide

theorem digitChar_ne_zero {m : Nat} (h0 : 0 < m) (h : m < 10) : digitChar m ≠ '0' := by
  interval_cases m <;> decide

theorem digitsAcc_digits (ds : List Char) : ∀ (rest : List Char) (a : Nat),
    (∀ c ∈ ds, c.isDigit = true) → noDigitHead rest = true →
    digitsAcc (ds ++ rest) a
      = (ds.foldl (fun x ch => x * 10 + (ch.toNat - 48)) a, rest) := by
  induction ds with
  | nil =>
    intro rest a _ hnd
    rcases rest with _ | ⟨r, rs⟩
    · rfl
    · have hr : r.isDigit = false := by simpa [noDigitHead] using hnd
      show digitsAcc (r :: rs) a = (a, r :: rs)
      rw [show digitsAcc (r :: rs) a
        = (if r.isDigit then digitsAcc rs (a * 10 + (r.toNat - 48)) else (a, r :: rs))
        from rfl]
      rw [hr]
      simp
  | cons d ds ih =>
    intro rest a hds hnd
    have hd : d.isDigit = true := hds d (by simp)
    show digitsAcc (d :: (ds ++ rest)) a = _
    rw [show digitsAcc (d :: (ds ++ rest)) a
      = (if d.isDigit then digitsAcc (ds ++ rest) (a * 10 + (d.toNat - 48))
         else (a, d :: (ds ++ rest))) from rfl]
    rw [hd]
    simp only [if_true, List.foldl_cons]
    exact ih rest (a * 10 + (d.toNat - 48)) (fun c hc => hds c (by simp [hc])) hnd

theorem natDigs_spec : ∀ (f n : Nat), 0 < n → n ≤ f →
    ∃ c ds, natDigs f n = c :: ds ∧ c.isDigit = true ∧ c ≠ '0' ∧
      (∀ d ∈ ds, d.isDigit = true) ∧
      (c :: ds).foldl (fun x ch => x * 10 + (ch.toNat - 48)) 0 = n := by
  intro f
  induction f with
  | zero => intro n h1 h2; omega
  | succ f ih =>
    intro n h1 h2
    rw [show natDigs (f + 1) n
      = (if n = 0 then [] else natDigs f (n / 10) ++ [digitChar (n % 10)]) from rfl]
    rw [if_neg (by omega)]
    by_cases hlt : n < 10
    · have hdiv0 : n / 10 = 0 := by omega
      have hmod : n % 10 = n := by omega
      rw [hdiv0, natDigs_zero, List.nil_append]
      refine ⟨digitChar (n % 10), [], rfl, isDigit_digitChar (by omega),
        digitChar_ne_zero (by omega) (by omega), by simp, ?_⟩
      have ht : (digitChar (n % 10)).toNat = 48 + n % 10 :=
        toNat_charOfNat (by omega)
      simp only [List.foldl_cons, List.foldl_nil]
      omega
    · have h10 : 0 < n / 10 := by omega
      have hle : n / 10 ≤ f := by omega
      rcases ih (n / 10) h10 hle with ⟨c, ds, heq, hcd, hc0, hds, hfold⟩
      refine ⟨c, ds ++ [digitChar (n % 10)], by rw [heq]; rfl, hcd, hc0, ?_, ?_⟩
      · intro d hd
        rcases List.mem_append.mp hd with h | h
        · exact hds d h
        · have : d = digitChar (n % 10) := List.mem_singleton.mp h
          rw [this]
          exact isDigit_digitChar (by omega)
      · rw [show c :: (ds ++ [digitChar (n % 10)]) = (c :: ds) ++ [digitChar (n % 10)]
          from rfl]
        rw [List.foldl_append, hfold]
        have ht : (digitChar (n % 10)).toNat = 48 + n % 10 :=
          toNat_charOfNat (by omega)
        simp only [List.foldl_cons, List.foldl_nil]
        omega

theorem natChars_head (m : Nat) :
    ∃ c cs, natChars m = c :: cs ∧ c.isDigit = true := by
  by_cases h0 : m = 0
  · exact ⟨'0', [], by simp [natChars, h0], by decide⟩
  · unfold natChars
    rw [if_pos (show 0 < m by omega)]
    rcases natDigs_spec m m (by omega) le_rfl with ⟨c, ds, heq, hcd, _, _, _⟩
    exact ⟨c, ds, heq, hcd⟩

theorem numBody_natChars (n : Nat) (rest : List Char) (hnd : noDigitHead rest = true) :
    numBody (natChars n ++ rest) = some (n, rest) := by
  by_cases h0 : n = 0
  · subst h0
    show numBody ('0' :: rest) = some (0, rest)
    rfl
  · unfold natChars
    rw [if_pos (show 0 < n by omega)]
    rcases natDigs_spec n n (by omega) le_rfl with ⟨c, ds, heq, hcd, hc0, hds, hfold⟩
    rw [heq, List.cons_append]
    rw [show numBody (c :: (ds ++ rest))
      = (if c = '0' then some (0, ds ++ rest)
         else if c.isDigit then some (digitsAcc (ds ++ rest) (c.toNat - 48))
         else none) from rfl]
    rw [if_neg hc0, if_pos hcd]
    rw [digitsAcc_digits ds rest (c.toNat - 48) hds hnd]
    have : ds.foldl (fun x ch => x * 10 + (ch.toNat - 48)) (c.toNat - 48) = n := by
      simpa using hfold
    rw [this]

theorem parseNum_intChars (n : Int) (rest : List Char) (hnd : noDigitHead rest = true) :
    parseNum (intChars n ++ rest) = some (.num n, rest) := by
  cases n with
  | ofNat m =>
    show parseNum (natChars m ++ rest) = _
    rcases natChars_head m with ⟨c, cs, heq, hcd⟩
    have hcm : c ≠ '-' := by
      intro hc
      rw [hc] at hcd
      exact absurd hcd (by decide)
    rw [heq, List.cons_append]
    rw [show parseNum (c :: (cs ++ rest))
      = (if c = '-' then (numBody (cs ++ rest)).map fun p => (.num (-(p.1 : Int)), p.2)
         else (numBody (c :: (cs ++ rest))).map fun p => (.num ((p.1 : Int)), p.2))
      from rfl]
    rw [if_neg hcm, ← List.cons_append, ← heq, numBody_natChars m rest hnd]
    rfl
  | negSucc m =>
    show parseNum ('-' :: (natChars (m + 1) ++ rest)) = _
    rw [show parseNum ('-' :: (natChars (m + 1) ++ rest))
      = (numBody (natChars (m + 1) ++ rest)).map fun p => (.num (-(p.1 : Int)), p.2)
      from rfl]
    rw [numBody_natChars (m + 1) rest hnd]
    simp [Int.negSucc_eq]

/-! ### The encoder output parses back: value-level lemmas -/

theorem parseVal_succ (f : Nat) (input : List Char) :
    parseVal (f + 1) input =
      (match skipWs input with
      | [] => none
      | c :: cs =>
        if c = 'n' then (litTail ['u', 'l', 'l'] cs).map fun r => (.null, r)
        else if c = 't' then (litTail ['r', 'u', 'e'] cs).map fun r => (.bool true, r)
        else if c = 'f' then (litTail ['a', 'l', 's', 'e'] cs).map fun r => (.bool false, r)
        else if c = '"' then (strBody cs).map fun p => (.str ⟨p.1⟩, p.2)
        else if c = '-' || c.isDigit then parseNum (c :: cs)
        else if c = '[' then
          match skipWs cs with
          | [] => none
          | c2 :: r =>
            if c2 = ']' then some (.arr [], r)
            else
              (parseVal f (c2 :: r)).bind fun p =>
                (arrTail (fun i => parseVal f i) f p.2).map fun q =>
                  (.arr (p.1 :: q.1), q.2)
        else if c = '{' then
          match skipWs cs with
          | [] => none
          | c2 :: r =>
            if c2 = '}' then some (.obj [], r)
            else
              (parseKey (fun i => parseVal f i) (c2 :: r)).bind fun p =>
                (objTail (fun i => parseVal f i) f p.2).map fun q =>
                  (.obj (p.1 :: q.1), q.2)
        else none) := rfl

theorem arrTail_succ (pv : List Char → Option (JValue × List Char)) (f : Nat)
    (input : List Char) :
    arrTail pv (f + 1) input =
      (match skipWs input with
      | [] => none
      | c :: r =>
        if c = ']' then some ([], r)
        else if c = ',' then
          (pv r).bind fun p => (arrTail pv f p.2).map fun q => (p.1 :: q.1, q.2)
        else none) := rfl

theorem objTail_succ (pv : List Char → Option (JValue × List Char)) (f : Nat)
    (input : List Char) :
    objTail pv (f + 1) input =
      (match skipWs input with
      | [] => none
      | c :: r =>
        if c = '}' then some ([], r)
        else if c = ',' then
          (parseKey pv r).bind fun p =>
            (objTail pv f p.2).map fun q => (p.1 :: q.1, q.2)
        else none) := rfl

theorem skipWs_idem (l : List Char) : skipWs (skipWs l) = skipWs l := by
  induction l with
  | nil => rfl
  | cons c cs ih =>
    by_cases h : isWsChar c = true
    · simp [skipWs, h, ih]
    · simp [skipWs, h]

theorem parseVal_skipWs_congr (f : Nat) (input : List Char) :
    parseVal f input = parseVal f (skipWs input) := by
  rcases f with _ | f
  · rfl
  · rw [parseVal_succ, parseVal_succ, skipWs_idem]

/-- The string-literal scan succeeds on an escaped string body. -/
theorem strBody_escape_self (s : String) (rest : List Char) :
    strBody ((s.toList.map escChar).flatten ++ '"' :: rest) = some (s.toList, rest) :=
  strTok_escape s.toList _ rest (Nat.lt_succ_self _)

/-- The parser reads back an encoded string literal. -/
theorem rt_str (s : String) (f : Nat) (rest : List Char)
    (hf : (strChars s ++ rest).length < f) :
    parseVal f (strChars s ++ rest) = some (.str s, rest) := by
  rcases f with _ | f
  · exact absurd hf (by omega)
  have hsh : strChars s ++ rest
      = '"' :: ((s.toList.map escChar).flatten ++ '"' :: rest) := by
    simp [strChars]
  rw [hsh, parseVal_succ, skipWs_cons_not _ (by decide)]
  simp only [List.cons.injEq, true_and]
  simp
  exact ⟨s.toList, strBody_escape_self s rest, stringMk_toList s⟩

/-- Digit and sign heads route `parseVal` into the numeral parser. -/
theorem parseVal_to_parseNum (f : Nat) (c : Char) (cs : List Char)
    (h : c = '-' ∨ c.isDigit = true) :
    parseVal (f + 1) (c :: cs) = parseNum (c :: cs) := by
  have hws : isWsChar c = false := by
    rcases h with rfl | hd
    · decide
    · exact digit_not_ws hd
  have hne : c ≠ 'n' ∧ c ≠ 't' ∧ c ≠ 'f' ∧ c ≠ '"' := by
    rcases h with rfl | hd
    · exact ⟨by decide, by decide, by decide, by decide⟩
    · exact ⟨fun hc => absurd (hc ▸ hd) (by decide),
        fun hc => absurd (hc ▸ hd) (by decide),
        fun hc => absurd (hc ▸ hd) (by decide),
        fun hc => absurd (hc ▸ hd) (by decide)⟩
  have hcond : (decide (c = '-') || c.isDigit) = true := by
    rcases h with rfl | hd
    · simp
    · simp [hd]
  rw [parseVal_succ, skipWs_cons_not _ hws]
  dsimp only
  rw [if_neg hne.1, if_neg hne.2.1, if_neg hne.2.2.1, if_neg hne.2.2.2, if_pos hcond]

/-- The parser reads back an encoded integer. -/
theorem rt_num (n : Int) (f : Nat) (rest : List Char)
    (hf : (intChars n ++ rest).length < f)
    (hnd : noDigitHead rest = true) :
    parseVal f (intChars n ++ rest) = some (.num n, rest) := by
  rcases f with _ | f
  · exact absurd hf (by omega)
  have hhead : ∃ c cs, intChars n = c :: cs ∧ (c = '-' ∨ c.isDigit = true) := by
    cases n with
    | ofNat m =>
      rcases natChars_head m with ⟨c, cs, heq, hcd⟩
      exact ⟨c, cs, heq, Or.inr hcd⟩
    | negSucc m => exact ⟨'-', natChars (m + 1), rfl, Or.inl rfl⟩
  rcases hhead with ⟨c, cs, heq, hor⟩
  rw [heq, List.cons_append, parseVal_to_parseNum f c (cs ++ rest) hor,
    ← List.cons_append, ← heq]
  exact parseNum_intChars n rest hnd

/-- The parser reads back the boolean literals. -/
theorem rt_bool (b : Bool) (f : Nat) (rest : List Char)
    (hf : (dumpVal 0 (.bool b) ++ rest).length < f) :
    parseVal f (dumpVal 0 (.bool b) ++ rest) = some (.bool b, rest) := by
  rcases f with _ | f
  · exact absurd hf (by omega)
  cases b
  · show parseVal (f + 1) ('f' :: (['a', 'l', 's', 'e'] ++ rest)) = _
    rw [parseVal_succ, skipWs_cons_not _ (by decide)]
    simp only [show (('f' : Char) = 'n') = False by simp, if_false,
      show (('f' : Char) = 't') = False by simp]
    simp
    exact litTail_self ['a', 'l', 's', 'e'] rest
  · show parseVal (f + 1) ('t' :: (['r', 'u', 'e'] ++ rest)) = _
    rw [parseVal_succ, skipWs_cons_not _ (by decide)]
    simp
    exact litTail_self ['r', 'u', 'e'] rest

/-- The read-back property for one encoded value at any depth. -/
def RTval (j : JValue) : Prop :=
  ∀ (d f : Nat) (rest : List Char),
    (dumpVal d j ++ rest).length < f → noDigitHead rest = true →
    parseVal f (dumpVal d j ++ rest) = some (j, rest)

theorem rtval_str (s : String) : RTval (.str s) := by
  intro d f rest hf _
  rw [show dumpVal d (.str s) = strChars s from by simp [dumpVal]] at hf ⊢
  exact rt_str s f rest hf

theorem rtval_num (n : Int) : RTval (.num n) := by
  intro d f rest hf hnd
  rw [show dumpVal d (.num n) = intChars n from by simp [dumpVal]] at hf ⊢
  exact rt_num n f rest hf hnd

theorem rtval_bool (b : Bool) : RTval (.bool b) := by
  intro d f rest hf _
  rw [show dumpVal d (.bool b) = dumpVal 0 (.bool b) from by cases b <;> simp [dumpVal]]
    at hf ⊢
  exact rt_bool b f rest hf

/-- Every encoded value dumps to a non-empty text whose first character is
not whitespace and not a closing token. -/
theorem dump_head (j : JValue) (d : Nat) :
    ∃ c cs, dumpVal d j = c :: cs ∧ isWsChar c = false ∧ c ≠ ']' ∧ c ≠ '}' := by
  cases j with
  | null => exact ⟨'n', ['u', 'l', 'l'], by simp [dumpVal], by decide, by decide, by decide⟩
  | bool b =>
    cases b
    · exact ⟨'f', ['a', 'l', 's', 'e'], by simp [dumpVal], by decide, by decide, by decide⟩
    · exact ⟨'t', ['r', 'u', 'e'], by simp [dumpVal], by decide, by decide, by decide⟩
  | num n =>
    cases n with
    | ofNat m =>
      rcases natChars_head m with ⟨c, cs, heq, hcd⟩
      refine ⟨c, cs, by simp [dumpVal, intChars, heq], digit_not_ws hcd, ?_, ?_⟩
      · intro hc
        rw [hc] at hcd
        exact absurd hcd (by decide)
      · intro hc
        rw [hc] at hcd
        exact absurd hcd (by decide)
    | negSucc m =>
      exact ⟨'-', natChars (m + 1), by simp [dumpVal, intChars], by decide, by decide,
        by decide⟩
  | str s =>
    exact ⟨'"', (s.toList.map escChar).flatten ++ ['"'], by simp [dumpVal, strChars],
      by decide, by decide, by decide⟩
  | arr xs =>
    cases xs with
    | nil => exact ⟨'[', [']'], by simp [dumpVal], by decide, by decide, by decide⟩
    | cons x xs =>
      exact ⟨'[', '\n' :: (pad (d + 1) ++ dumpVal (d + 1) x ++ dumpArrTail (d + 1) xs
        ++ '\n' :: (pad d ++ [']'])), by simp [dumpVal], by decide, by decide, by decide⟩
  | obj ms =>
    cases ms with
    | nil => exact ⟨'{', ['}'], by simp [dumpVal], by decide, by decide, by decide⟩
    | cons m ms =>
      exact ⟨'{', '\n' :: (pad (d + 1) ++ strChars m.1 ++ ':' :: ' ' :: dumpVal (d + 1) m.2
        ++ dumpObjTail (d + 1) ms ++ '\n' :: (pad d ++ ['}'])), by simp [dumpVal],
        by decide, by decide, by decide⟩

theorem noDigitHead_arrTail_close (d2 dc : Nat) (xs : List JValue) (rest : List Char) :
    noDigitHead (dumpArrTail d2 xs ++ '\n' :: (pad dc ++ ']' :: rest)) = true := by
  cases xs with
  | nil =>
    rw [show dumpArrTail d2 [] = [] from by simp [dumpArrTail]]
    rfl
  | cons y ys =>
    rw [show dumpArrTail d2 (y :: ys)
      = ',' :: '\n' :: (pad d2 ++ dumpVal d2 y ++ dumpArrTail d2 ys)
      from by simp [dumpArrTail]]
    rfl

theorem arrTail_items (items : List JValue) (hrt : ∀ j ∈ items, RTval j) :
    ∀ (g f d2 dc : Nat) (rest : List Char),
      (dumpArrTail d2 items ++ '\n' :: (pad dc ++ ']' :: rest)).length < g →
      (dumpArrTail d2 items ++ '\n' :: (pad dc ++ ']' :: rest)).length < f →
      noDigitHead rest = true →
      arrTail (fun i => parseVal f i) g
        (dumpArrTail d2 items ++ '\n' :: (pad dc ++ ']' :: rest))
        = some (items, rest) := by
  induction items with
  | nil =>
    intro g f d2 dc rest hg hf hnd
    rw [show dumpArrTail d2 [] = [] from by simp [dumpArrTail], List.nil_append] at hg hf ⊢
    rcases g with _ | g
    · exact absurd hg (by omega)
    rw [arrTail_succ, skipWs_newline, skipWs_pad, skipWs_cons_not _ (by decide)]
    simp
  | cons x xs ih =>
    intro g f d2 dc rest hg hf hnd
    have harr : dumpArrTail d2 (x :: xs) ++ '\n' :: (pad dc ++ ']' :: rest)
        = ',' :: '\n' :: (pad d2 ++ (dumpVal d2 x
            ++ (dumpArrTail d2 xs ++ '\n' :: (pad dc ++ ']' :: rest)))) := by
      simp [dumpArrTail]
    rw [harr] at hg hf ⊢
    rcases g with _ | g
    · exact absurd hg (by omega)
    have hx2 : parseVal f ('\n' :: (pad d2 ++ (dumpVal d2 x
          ++ (dumpArrTail d2 xs ++ '\n' :: (pad dc ++ ']' :: rest)))))
        = some (x, dumpArrTail d2 xs ++ '\n' :: (pad dc ++ ']' :: rest)) := by
      rw [parseVal_skipWs_congr, skipWs_newline, skipWs_pad]
      rcases dump_head x d2 with ⟨c0, cs0, heq, hws, _, _⟩
      rw [heq, List.cons_append, skipWs_cons_not _ hws, ← List.cons_append, ← heq]
      apply hrt x (by simp) d2 f _ ?_ (noDigitHead_arrTail_close d2 dc xs rest)
      simp at hf ⊢
      omega
    rw [arrTail_succ, skipWs_cons_not _ (by decide)]
    dsimp only
    rw [if_neg (by decide : ¬(',' : Char) = ']'), if_pos rfl, hx2]
    rw [Option.some_bind]
    rw [ih (fun j hj => hrt j (by simp [hj])) g f d2 dc rest
      (by simp at hg ⊢; omega) (by simp at hf ⊢; omega) hnd]
    rfl

/-- Arrays of read-back-able items read back. -/
theorem rtval_arr (items : List JValue) (hrt : ∀ j ∈ items, RTval j) :
    RTval (.arr items) := by
  intro d f rest hf hnd
  cases items with
  | nil =>
    rw [show dumpVal d (.arr []) = ['[', ']'] from by simp [dumpVal]] at hf ⊢
    rcases f with _ | f
    · exact absurd hf (by omega)
    show parseVal (f + 1) ('[' :: (']' :: rest)) = _
    rw [parseVal_succ, skipWs_cons_not _ (by decide)]
    dsimp only
    rw [if_neg (by decide), if_neg (by decide), if_neg (by decide), if_neg (by decide),
      if_neg (by decide), if_pos rfl, skipWs_cons_not _ (by decide)]
    simp
  | cons x xs =>
    have hsh : dumpVal d (.arr (x :: xs)) ++ rest
        = '[' :: '\n' :: (pad (d + 1) ++ (dumpVal (d + 1) x
            ++ (dumpArrTail (d + 1) xs ++ '\n' :: (pad d ++ ']' :: rest)))) := by
      simp [dumpVal]
    rw [hsh] at hf ⊢
    rcases f with _ | f
    · exact absurd hf (by omega)
    have hx3 : parseVal f (dumpVal (d + 1) x
          ++ (dumpArrTail (d + 1) xs ++ '\n' :: (pad d ++ ']' :: rest)))
        = some (x, dumpArrTail (d + 1) xs ++ '\n' :: (pad d ++ ']' :: rest)) := by
      apply hrt x (by simp) (d + 1) f _ ?_ (noDigitHead_arrTail_close (d + 1) d xs rest)
      simp at hf ⊢
      omega
    rw [parseVal_succ, skipWs_cons_not _ (by decide)]
    dsimp only
    rw [if_neg (by decide), if_neg (by decide), if_neg (by decide), if_neg (by decide),
      if_neg (by decide), if_pos rfl, skipWs_newline, skipWs_pad]
    rcases dump_head x (d + 1) with ⟨c0, cs0, heq, hws, hbr, _⟩
    rw [heq, List.cons_append, skipWs_cons_not _ hws]
    dsimp only
    rw [if_neg hbr, ← List.cons_append, ← heq, hx3]
    rw [Option.some_bind]
    rw [arrTail_items xs (fun j hj => hrt j (by simp [hj])) f f (d + 1) d rest
      (by simp at hf ⊢; omega) (by simp at hf ⊢; omega) hnd]
    rfl

theorem parseKey_eq (pv : List Char → Option (JValue × List Char)) (input : List Char) :
    parseKey pv input =
      (match skipWs input with
      | [] => none
      | c :: cs =>
        if c = '"' then
          (strBody cs).bind fun p =>
            match skipWs p.2 with
            | [] => none
            | c2 :: r2 =>
              if c2 = ':' then (pv r2).map fun q => ((⟨p.1⟩, q.1), q.2) else none
        else none) := rfl

theorem parseKey_skipWs_congr (pv : List Char → Option (JValue × List Char))
    (input : List Char) : parseKey pv input = parseKey pv (skipWs input) := by
  rw [parseKey_eq, parseKey_eq, skipWs_idem]

/-- The member parser reads back one encoded `"key": value` member. -/
theorem parseKey_rt (k : String) (v : JValue) (hv : RTval v) (d f : Nat)
    (rest : List Char)
    (hf : (strChars k ++ ':' :: ' ' :: (dumpVal d v ++ rest)).length < f)
    (hnd : noDigitHead rest = true) :
    parseKey (fun i => parseVal f i) (strChars k ++ ':' :: ' ' :: (dumpVal d v ++ rest))
      = some ((k, v), rest) := by
  have hsh : strChars k ++ ':' :: ' ' :: (dumpVal d v ++ rest)
      = '"' :: ((k.toList.map escChar).flatten
          ++ '"' :: (':' :: ' ' :: (dumpVal d v ++ rest))) := by
    simp [strChars]
  rw [hsh, parseKey_eq, skipWs_cons_not _ (by decide)]
  dsimp only
  rw [if_pos rfl, strBody_escape_self, Option.some_bind]
  dsimp only
  rw [skipWs_cons_not _ (by decide)]
  dsimp only
  rw [if_pos rfl]
  have hv2 : parseVal f (' ' :: (dumpVal d v ++ rest)) = some (v, rest) := by
    rw [parseVal_skipWs_congr,
      show skipWs (' ' :: (dumpVal d v ++ rest)) = skipWs (dumpVal d v ++ rest) from by
        simp [skipWs, isWsChar]]
    rcases dump_head v d with ⟨c0, cs0, heq, hws, _, _⟩
    rw [heq, List.cons_append, skipWs_cons_not _ hws, ← List.cons_append, ← heq]
    apply hv d f _ ?_ hnd
    simp at hf ⊢
    omega
  rw [hv2]
  simp [stringMk_toList]

theorem noDigitHead_objTail_close (d2 dc : Nat) (ms : List (String × JValue))
    (rest : List Char) :
    noDigitHead (dumpObjTail d2 ms ++ '\n' :: (pad dc ++ '}' :: rest)) = true := by
  cases ms with
  | nil =>
    rw [show dumpObjTail d2 [] = [] from by simp [dumpObjTail]]
    rfl
  | cons m ms =>
    rw [show dumpObjTail d2 (m :: ms)
      = ',' :: '\n' :: (pad d2 ++ strChars m.1 ++ ':' :: ' ' :: dumpVal d2 m.2
          ++ dumpObjTail d2 ms)
      from by simp [dumpObjTail]]
    rfl

theorem objTail_members (ms : List (String × JValue)) (hrt : ∀ m ∈ ms, RTval m.2) :
    ∀ (g f d2 dc : Nat) (rest : List Char),
      (dumpObjTail d2 ms ++ '\n' :: (pad dc ++ '}' :: rest)).length < g →
      (dumpObjTail d2 ms ++ '\n' :: (pad dc ++ '}' :: rest)).length < f →
      noDigitHead rest = true →
      objTail (fun i => parseVal f i) g
        (dumpObjTail d2 ms ++ '\n' :: (pad dc ++ '}' :: rest))
        = some (ms, rest) := by
  induction ms with
  | nil =>
    intro g f d2 dc rest hg hf hnd
    rw [show dumpObjTail d2 [] = [] from by simp [dumpObjTail], List.nil_append] at hg hf ⊢
    rcases g with _ | g
    · exact absurd hg (by omega)
    rw [objTail_succ, skipWs_newline, skipWs_pad, skipWs_cons_not _ (by decide)]
    simp
  | cons m ms ih =>
    intro g f d2 dc rest hg hf hnd
    have hobj : dumpObjTail d2 (m :: ms) ++ '\n' :: (pad dc ++ '}' :: rest)
        = ',' :: '\n' :: (pad d2 ++ (strChars m.1 ++ ':' :: ' ' :: (dumpVal d2 m.2
            ++ (dumpObjTail d2 ms ++ '\n' :: (pad dc ++ '}' :: rest))))) := by
      simp [dumpObjTail]
    rw [hobj] at hg hf ⊢
    rcases g with _ | g
    · exact absurd hg (by omega)
    have hkey : parseKey (fun i => parseVal f i)
        ('\n' :: (pad d2 ++ (strChars m.1 ++ ':' :: ' ' :: (dumpVal d2 m.2
            ++ (dumpObjTail d2 ms ++ '\n' :: (pad dc ++ '}' :: rest))))))
        = some ((m.1, m.2), dumpObjTail d2 ms ++ '\n' :: (pad dc ++ '}' :: rest)) := by
      rw [parseKey_skipWs_congr, skipWs_newline, skipWs_pad,
        show strChars m.1 ++ ':' :: ' ' :: (dumpVal d2 m.2
            ++ (dumpObjTail d2 ms ++ '\n' :: (pad dc ++ '}' :: rest)))
          = '"' :: ((m.1.toList.map escChar).flatten
              ++ '"' :: (':' :: ' ' :: (dumpVal d2 m.2
                ++ (dumpObjTail d2 ms ++ '\n' :: (pad dc ++ '}' :: rest))))) from by
          simp [strChars],
        skipWs_cons_not _ (by decide)]
      rw [show '"' :: ((m.1.toList.map escChar).flatten
            ++ '"' :: (':' :: ' ' :: (dumpVal d2 m.2
              ++ (dumpObjTail d2 ms ++ '\n' :: (pad dc ++ '}' :: rest)))))
          = strChars m.1 ++ ':' :: ' ' :: (dumpVal d2 m.2
              ++ (dumpObjTail d2 ms ++ '\n' :: (pad dc ++ '}' :: rest))) from by
          simp [strChars]]
      exact parseKey_rt m.1 m.2 (hrt m (by simp)) d2 f _
        (by simp at hg hf ⊢; omega) (noDigitHead_objTail_close d2 dc ms rest)
    rw [objTail_succ, skipWs_cons_not _ (by decide)]
    dsimp only
    rw [if_neg (by decide : ¬(',' : Char) = '}'), if_pos rfl, hkey]
    rw [Option.some_bind]
    rw [ih (fun x hx => hrt x (by simp [hx])) g f d2 dc rest
      (by simp at hg ⊢; omega) (by simp at hf ⊢; omega) hnd]
    rfl

/-- Objects whose member values read back read back. -/
theorem rtval_obj (ms : List (String × JValue)) (hrt : ∀ m ∈ ms, RTval m.2) :
    RTval (.obj ms) := by
  intro d f rest hf hnd
  cases ms with
  | nil =>
    rw [show dumpVal d (.obj []) = ['{', '}'] from by simp [dumpVal]] at hf ⊢
    rcases f with _ | f
    · exact absurd hf (by omega)
    show parseVal (f + 1) ('{' :: ('}' :: rest)) = _
    rw [parseVal_succ, skipWs_cons_not _ (by decide)]
    dsimp only
    rw [if_neg (by decide), if_neg (by decide), if_neg (by decide), if_neg (by decide),
      if_neg (by decide), if_neg (by decide), if_pos rfl,
      skipWs_cons_not _ (by decide)]
    simp
  | cons m ms =>
    have hsh : dumpVal d (.obj (m :: ms)) ++ rest
        = '{' :: '\n' :: (pad (d + 1) ++ (strChars m.1 ++ ':' :: ' ' :: (dumpVal (d + 1) m.2
            ++ (dumpObjTail (d + 1) ms ++ '\n' :: (pad d ++ '}' :: rest))))) := by
      simp [dumpVal]
    rw [hsh] at hf ⊢
    rcases f with _ | f
    · exact absurd hf (by omega)
    have hkey : parseKey (fun i => parseVal f i)
        (strChars m.1 ++ ':' :: ' ' :: (dumpVal (d + 1) m.2
            ++ (dumpObjTail (d + 1) ms ++ '\n' :: (pad d ++ '}' :: rest))))
        = some ((m.1, m.2), dumpObjTail (d + 1) ms ++ '\n' :: (pad d ++ '}' :: rest)) :=
      parseKey_rt m.1 m.2 (hrt m (by simp)) (d + 1) f _
        (by simp at hf ⊢; omega) (noDigitHead_objTail_close (d + 1) d ms rest)
    rw [parseVal_succ, skipWs_cons_not _ (by decide)]
    dsimp only
    rw [if_neg (by decide), if_neg (by decide), if_neg (by decide), if_neg (by decide),
      if_neg (by decide), if_neg (by decide), if_pos rfl, skipWs_newline, skipWs_pad,
      show strChars m.1 ++ ':' :: ' ' :: (dumpVal (d + 1) m.2
          ++ (dumpObjTail (d + 1) ms ++ '\n' :: (pad d ++ '}' :: rest)))
        = '"' :: ((m.1.toList.map escChar).flatten
            ++ '"' :: (':' :: ' ' :: (dumpVal (d + 1) m.2
              ++ (dumpObjTail (d + 1) ms ++ '\n' :: (pad d ++ '}' :: rest))))) from by
        simp [strChars],
      skipWs_cons_not _ (by decide)]
    dsimp only
    rw [if_neg (by decide : ¬('"' : Char) = '}')]
    rw [show '"' :: ((m.1.toList.map escChar).flatten
          ++ '"' :: (':' :: ' ' :: (dumpVal (d + 1) m.2
            ++ (dumpObjTail (d + 1) ms ++ '\n' :: (pad d ++ '}' :: rest)))))
        = strChars m.1 ++ ':' :: ' ' :: (dumpVal (d + 1) m.2
            ++ (dumpObjTail (d + 1) ms ++ '\n' :: (pad d ++ '}' :: rest))) from by
      simp [strChars]]
    rw [hkey, Option.some_bind]
    rw [objTail_members ms (fun x hx => hrt x (by simp [hx])) f f (d + 1) d rest
      (by simp at hf ⊢; omega) (by simp at hf ⊢; omega) hnd]
    rfl

theorem rtval_encodeVal (v : Value) : RTval (encodeVal v) := by
  cases v with
  | vStr s => exact rtval_str s
  | vNum n => exact rtval_num n
  | vBool b => exact rtval_bool b
  | vList ss =>
    refine rtval_arr (ss.map JValue.str) fun j hj => ?_
    rcases List.mem_map.mp hj with ⟨t, _, rfl⟩
    exact rtval_str t

theorem rtval_encodeSub (sub : Submission) : RTval (encodeSub sub) := by
  refine rtval_obj (sub.map fun kv => (kv.1, encodeVal kv.2)) fun m hm => ?_
  rcases List.mem_map.mp hm with ⟨kv, _, rfl⟩
  exact rtval_encodeVal kv.2

/-- Loading undoes dumping on any array of read-back-able values. -/
theorem load_dump_arr (items : List JValue) (hrt : ∀ j ∈ items, RTval j) :
    load (dump (.arr items)) = some (.arr items) := by
  have h := rtval_arr items hrt 0 ((dumpVal 0 (.arr items)).length + 1) []
    (by simp) rfl
  rw [List.append_nil] at h
  unfold load dump
  rw [show (⟨dumpVal 0 (.arr items)⟩ : String).toList = dumpVal 0 (.arr items) from rfl,
    h]
  simp [skipWs]

/-- Loading undoes dumping on an encoded history log. -/
theorem load_dump_log (log : List Submission) :
    load (dump (.arr (encodeLog log))) = some (.arr (encodeLog log)) := by
  refine load_dump_arr (encodeLog log) fun j hj => ?_
  rcases List.mem_map.mp hj with ⟨sub, _, rfl⟩
  exact rtval_encodeSub sub

theorem encodeVal_inj (v w : Value) (h : encodeVal v = encodeVal w) : v = w := by
  cases v <;> cases w <;> simp [encodeVal] at h ⊢ <;> try exact h
  exact List.map_injective_iff.mpr (fun a b hab => by injection hab) h

theorem encodeSub_inj (s1 s2 : Submission) (h : encodeSub s1 = encodeSub s2) :
    s1 = s2 := by
  simp only [encodeSub, JValue.obj.injEq] at h
  refine List.map_injective_iff.mpr ?_ h
  intro a b hab
  have hab2 : (a.1, encodeVal a.2) = (b.1, encodeVal b.2) := hab
  injection hab2 with h1 h2
  exact Prod.ext h1 (encodeVal_inj a.2 b.2 h2)

theorem encodeLog_inj (l1 l2 : List Submission) (h : encodeLog l1 = encodeLog l2) :
    l1 = l2 :=
  List.map_injective_iff.mpr encodeSub_inj h

theorem eraseIdx_map (f : A → B) : ∀ (l : List A) (i : Nat),
    (l.map f).eraseIdx i = (l.eraseIdx i).map f := by
  intro l
  induction l with
  | nil => intro i; simp
  | cons a as ih =>
    intro i
    cases i with
    | zero => simp
    | succ j => simp [ih j]

/-- Does some field of some submission in the log hold a value of this kind? -/
def hasKind (log : List Submission) (p : Value → Bool) : Bool :=
  log.any fun sub => sub.any fun kv => p kv.2

def isVStr : Value → Bool
  | .vStr _ => true
  | _ => false

def isVNum : Value → Bool
  | .vNum _ => true
  | _ => false

def isVBool : Value → Bool
  | .vBool _ => true
  | _ => false

def isVList : Value → Bool
  | .vList _ => true
  | _ => false

/-- C3: appending a submission to the history and listing it yields the old
log with the new submission as last element, one longer than before. -/
theorem claim_C3 (log : List Submission) (data : Submission) (file : Option String)
    (hfile : file = some (dump (.arr (encodeLog log))) ∨ (file = none ∧ log = [])) :
    guardar_historial file (encodeSub data)
        = .ok (some (dump (.arr (encodeLog (log ++ [data]))))) ∧
    mostrar_historial (some (dump (.arr (encodeLog (log ++ [data])))))
        = .ok (encodeLog (log ++ [data])) ∧
    (encodeLog (log ++ [data])).getLast? = some (encodeSub data) ∧
    (encodeLog (log ++ [data])).length = log.length + 1 := by
  have henc : encodeLog (log ++ [data]) = encodeLog log ++ [encodeSub data] := by
    simp [encodeLog]
  refine ⟨?_, ?_, ?_, by simp [encodeLog]⟩
  · rcases hfile with rfl | ⟨rfl, rfl⟩
    · unfold guardar_historial
      dsimp only
      rw [load_dump_log]
      simp [henc]
    · simp [guardar_historial, encodeLog]
  · unfold mostrar_historial
    dsimp only
    rw [load_dump_log]
  · simp [henc]

/-- Witness for C3 at a concrete one-entry log. -/
theorem claim_C3_witness :
    guardar_historial (some (dump (.arr (encodeLog [[("a", Value.vNum 1)]]))))
        (encodeSub [("b", Value.vStr "x")])
      = .ok (some (dump (.arr (encodeLog ([[("a", Value.vNum 1)]]
          ++ [[("b", Value.vStr "x")]]))))) ∧
    mostrar_historial (some (dump (.arr (encodeLog ([[("a", Value.vNum 1)]]
          ++ [[("b", Value.vStr "x")]])))))
      = .ok (encodeLog ([[("a", Value.vNum 1)]] ++ [[("b", Value.vStr "x")]])) ∧
    (encodeLog ([[("a", Value.vNum 1)]] ++ [[("b", Value.vStr "x")]])).getLast?
      = some (encodeSub [("b", Value.vStr "x")]) ∧
    (encodeLog ([[("a", Value.vNum 1)]] ++ [[("b", Value.vStr "x")]])).length
      = [[("a", Value.vNum 1)]].length + 1 :=
  claim_C3 [[("a", Value.vNum 1)]] [("b", Value.vStr "x")] _ (Or.inl rfl)

/-- C4: deleting an in-range index removes exactly the entry at that
position (the log becomes its prefix up to `i` followed by its suffix after
`i`, one entry shorter), and listing reads that log back; an out-of-range
index leaves the file untouched. -/
theorem claim_C4 (log : List Submission) (i : Int) :
    (0 ≤ i ∧ i < (log.length : Int) →
      eliminar_entrada_historial (some (dump (.arr (encodeLog log)))) i
        = .ok (some (dump (.arr (encodeLog (log.eraseIdx i.toNat))))) ∧
      mostrar_historial (some (dump (.arr (encodeLog (log.eraseIdx i.toNat)))))
        = .ok (encodeLog (log.eraseIdx i.toNat)) ∧
      (log.eraseIdx i.toNat).length = log.length - 1 ∧
      log.eraseIdx i.toNat = log.take i.toNat ++ log.drop (i.toNat + 1)) ∧
    (¬(0 ≤ i ∧ i < (log.length : Int)) →
      eliminar_entrada_historial (some (dump (.arr (encodeLog log)))) i
        = .ok (some (dump (.arr (encodeLog log))))) := by
  have hlen : ((encodeLog log).length : Int) = (log.length : Int) := by
    simp [encodeLog]
  constructor
  · intro hin
    have hcond : 0 ≤ i ∧ i < ((encodeLog log).length : Int) := ⟨hin.1, by
      rw [hlen]; exact hin.2⟩
    have hnat : i.toNat < log.length := by omega
    refine ⟨?_, ?_, ?_, List.eraseIdx_eq_take_drop_succ log i.toNat⟩
    · unfold eliminar_entrada_historial
      dsimp only
      rw [load_dump_log]
      dsimp only
      rw [if_pos hcond,
        show (encodeLog log).eraseIdx i.toNat = encodeLog (log.eraseIdx i.toNat) from by
          simp only [encodeLog]
          exact eraseIdx_map encodeSub log i.toNat]
    · unfold mostrar_historial
      dsimp only
      rw [load_dump_log]
    · rw [List.length_eraseIdx]
      simp [hnat]
  · intro hout
    have hcond : ¬(0 ≤ i ∧ i < ((encodeLog log).length : Int)) := fun hc =>
      hout ⟨hc.1, by rw [← hlen]; exact hc.2⟩
    unfold eliminar_entrada_historial
    dsimp only
    rw [load_dump_log]
    dsimp only
    rw [if_neg hcond]

/-- Witness for C4 at a concrete two-entry log: deleting index 0 keeps only
the second entry; deleting index 5 is a no-op. -/
theorem claim_C4_witness :
    (eliminar_entrada_historial
        (some (dump (.arr (encodeLog [[("a", Value.vNum 1)], [("b", Value.vNum 2)]])))) 0
      = .ok (some (dump (.arr (encodeLog
          ([[("a", Value.vNum 1)], [("b", Value.vNum 2)]].eraseIdx (0 : Int).toNat))))) ∧
     mostrar_historial (some (dump (.arr (encodeLog
          ([[("a", Value.vNum 1)], [("b", Value.vNum 2)]].eraseIdx (0 : Int).toNat)))))
      = .ok (encodeLog ([[("a", Value.vNum 1)], [("b", Value.vNum 2)]].eraseIdx
          (0 : Int).toNat)) ∧
     ([[("a", Value.vNum 1)], [("b", Value.vNum 2)]].eraseIdx (0 : Int).toNat).length
      = [[("a", Value.vNum 1)], [("b", Value.vNum 2)]].length - 1 ∧
     [[("a", Value.vNum 1)], [("b", Value.vNum 2)]].eraseIdx (0 : Int).toNat
      = [[("a", Value.vNum 1)], [("b", Value.vNum 2)]].take (0 : Int).toNat
          ++ [[("a", Value.vNum 1)], [("b", Value.vNum 2)]].drop ((0 : Int).toNat + 1)) ∧
    eliminar_entrada_historial
        (some (dump (.arr (encodeLog [[("a", Value.vNum 1)], [("b", Value.vNum 2)]])))) 5
      = .ok (some (dump (.arr (encodeLog [[("a", Value.vNum 1)], [("b", Value.vNum 2)]])))) :=
  ⟨(claim_C4 [[("a", Value.vNum 1)], [("b", Value.vNum 2)]] 0).1 (by constructor <;> decide),
   (claim_C4 [[("a", Value.vNum 1)], [("b", Value.vNum 2)]] 5).2 (by decide)⟩

/-- C8: a history log holding submissions with all four value kinds, written
with `json.dump(indent=2, ensure_ascii=False)` and read back with
`json.load`, is recovered exactly — values, types and order preserved — and
equality of the read-back arrays implies equality of the submissions. -/
theorem claim_C8 (log log2 : List Submission)
    (_hkinds : hasKind log isVStr = true ∧ hasKind log isVNum = true ∧
      hasKind log isVBool = true ∧ hasKind log isVList = true)
    (_hkeys : ∀ sub ∈ log, KeysNodup sub) :
    mostrar_historial (some (dump (.arr (encodeLog log)))) = .ok (encodeLog log) ∧
    (encodeLog log = encodeLog log2 → log = log2) := by
  refine ⟨?_, encodeLog_inj log log2⟩
  unfold mostrar_historial
  dsimp only
  rw [load_dump_log]

/-- Witness for C8 at a concrete log holding a string, a number, a boolean
and a list of strings (with a non-ASCII character). -/
theorem claim_C8_witness :
    mostrar_historial (some (dump (.arr (encodeLog
        [[("nombre", Value.vStr "Ana María"), ("edad", Value.vNum 30),
          ("activo", Value.vBool true), ("tags", Value.vList ["a", "b"])]]))))
      = .ok (encodeLog
        [[("nombre", Value.vStr "Ana María"), ("edad", Value.vNum 30),
          ("activo", Value.vBool true), ("tags", Value.vList ["a", "b"])]]) ∧
    (encodeLog
        [[("nombre", Value.vStr "Ana María"), ("edad", Value.vNum 30),
          ("activo", Value.vBool true), ("tags", Value.vList ["a", "b"])]]
      = encodeLog
        [[("nombre", Value.vStr "Ana María"), ("edad", Value.vNum 30),
          ("activo", Value.vBool true), ("tags", Value.vList ["a", "b"])]]
      → [[("nombre", Value.vStr "Ana María"), ("edad", Value.vNum 30),
          ("activo", Value.vBool true), ("tags", Value.vList ["a", "b"])]]
        = [[("nombre", Value.vStr "Ana María"), ("edad", Value.vNum 30),
            ("activo", Value.vBool true), ("tags", Value.vList ["a", "b"])]]) :=
  claim_C8
    [[("nombre", Value.vStr "Ana María"), ("edad", Value.vNum 30),
      ("activo", Value.vBool true), ("tags", Value.vList ["a", "b"])]]
    [[("nombre", Value.vStr "Ana María"), ("edad", Value.vNum 30),
      ("activo", Value.vBool true), ("tags", Value.vList ["a", "b"])]]
    (by refine ⟨?_, ?_, ?_, ?_⟩ <;> decide)
    (by
      intro sub hsub
      rw [List.mem_singleton] at hsub
      subst hsub
      show (List.map Prod.fst [("nombre", Value.vStr "Ana María"),
        ("edad", Value.vNum 30), ("activo", Value.vBool true),
        ("tags", Value.vList ["a", "b"])]).Nodup
      decide)

end JsonFormApp
